import Mathlib

/-!
Verification development for the pyedf EDF/BDF codec (EDF.py).

The file shallowly embeds the parts of EDF.py that the checked properties
concern: the fixed-width ASCII header encoder (EDFWriter.write_header) and
decoder (EDFReader.read_header), the calibration derivation shared by both,
the per-sample digital encoding of EDFWriter.write_block and decoding of
EDFReader.read_block, the record-count finalization copy of EDFWriter.close,
and the random-access slicing of EDFReader.read_samples / read_signal.

Modelling conventions:
  - on-disk bytes are `List Nat` (byte values 0..255); Python strings that
    end up in the file are byte lists as well;
  - Python ints are `Int`/`Nat`; Python floats are `Rat` where the code only
    manipulates values on which float64 arithmetic is exact (small integers
    and quotients compared for sign/equality), with comments at each spot
    where the exactness assumption matters;
  - numpy float64 special values (inf, nan) produced by the calibration
    division are modelled by an explicit extended-value type `FV` that
    mirrors IEEE comparison and arithmetic on the operations the code uses.
-/

namespace EDF

/-! ### Byte-string primitives: Python strip, padtrim, str/int -/

/-- Python whitespace bytes, as tested by bytes.strip / str.strip. -/
def isPySpace (b : Nat) : Bool :=
  b = 32 || b = 9 || b = 10 || b = 13 || b = 11 || b = 12

/-- Convenience: the byte list of an ASCII string literal. -/
def bytesOf (s : String) : List Nat := s.toList.map Char.toNat

/-- Model of Python s.strip(): remove trailing, then leading whitespace
(the two removals commute; trailing-first is convenient for the lemmas). -/
def stripB (l : List Nat) : List Nat :=
  ((l.reverse.dropWhile isPySpace).reverse).dropWhile isPySpace

/-- EDF.py padtrim: pad with spaces up to num when the value fits,
else silently slice to the first num bytes (buf[0:num-len(buf)]). -/
def padtrim (buf : List Nat) (num : Nat) : List Nat :=
  if buf.length ≤ num then buf ++ List.replicate (num - buf.length) 32
  else buf.take num

/-- Decimal digit byte. -/
def digitByte (d : Nat) : Nat := 48 + d

/-- Fuel-based decimal digit emission, most significant digit first. -/
def natBytesAux : Nat → Nat → List Nat
  | 0, _ => []
  | _ + 1, 0 => []
  | fuel + 1, n + 1 => natBytesAux fuel ((n + 1) / 10) ++ [digitByte ((n + 1) % 10)]

/-- Model of Python str(n) for a nonnegative integer. -/
def natBytes (n : Nat) : List Nat :=
  if n = 0 then [48] else natBytesAux n n

theorem natBytesAux_eq_digits (fuel n : Nat) (h : n ≤ fuel) :
    natBytesAux fuel n = ((Nat.digits 10 n).map digitByte).reverse := by
  induction fuel generalizing n with
  | zero =>
    have : n = 0 := by omega
    simp [this, natBytesAux]
  | succ f ih =>
    cases n with
    | zero => simp [natBytesAux]
    | succ m =>
      rw [natBytesAux, Nat.digits_def' (by norm_num : (1:ℕ) < 10) (Nat.succ_pos m)]
      rw [ih ((m + 1) / 10) (by omega)]
      simp

/-- Bridge to the Nat.digits formulation used by the parse lemmas. -/
theorem natBytes_eq (n : Nat) :
    natBytes n = if n = 0 then [48] else ((Nat.digits 10 n).map digitByte).reverse := by
  unfold natBytes
  split
  · rfl
  · exact natBytesAux_eq_digits n n le_rfl

/-- Model of Python str(i) for an integer. -/
def intBytes (i : Int) : List Nat :=
  if i < 0 then 45 :: natBytes i.natAbs else natBytes i.toNat

/-- Value of a digit byte. -/
def digitVal (b : Nat) : Nat := b - 48

/-- Model of Python int(s) on a stripped all-digit byte list
(most significant digit first). -/
def parseNatB (l : List Nat) : Nat := l.foldl (fun a c => 10 * a + digitVal c) 0

/-- Model of Python int(s) on a stripped byte list with optional minus sign
(45 is the minus byte). -/
def parseIntB (l : List Nat) : Int :=
  if l.head? = some 45 then -(parseNatB l.tail : Int) else (parseNatB l : Int)

theorem parseNatB_append_digit (l : List Nat) (b : Nat) :
    parseNatB (l ++ [b]) = 10 * parseNatB l + digitVal b := by
  simp [parseNatB, List.foldl_append]

theorem parseNatB_rev_map_digits (ds : List Nat) (h : ∀ d ∈ ds, d < 10) :
    parseNatB ((ds.map digitByte).reverse) = Nat.ofDigits 10 ds := by
  induction ds with
  | nil => simp [parseNatB]
  | cons d ds ih =>
    have hd : d < 10 := h d (by simp)
    have hds : ∀ x ∈ ds, x < 10 := fun x hx => h x (by simp [hx])
    simp only [List.map_cons, List.reverse_cons, parseNatB_append_digit, ih hds]
    have : digitVal (digitByte d) = d := by
      simp [digitVal, digitByte]
    rw [this, Nat.ofDigits_cons]
    ring

/-- Python int(str(n)) = n for nonnegative n. -/
theorem parseNatB_natBytes (n : Nat) : parseNatB (natBytes n) = n := by
  by_cases h : n = 0
  · subst h; simp [natBytes, natBytesAux, parseNatB, digitVal]
  · rw [natBytes_eq, if_neg h,
      parseNatB_rev_map_digits _ (fun d hd => Nat.digits_lt_base (by norm_num) hd)]
    exact Nat.ofDigits_digits 10 n

/-- Every byte of a nonnegative decimal numeral is a digit byte. -/
theorem natBytes_mem_digit (n : Nat) : ∀ b ∈ natBytes n, 48 ≤ b ∧ b ≤ 57 := by
  intro b hb
  by_cases h : n = 0
  · subst h
    have : b = 48 := by simpa [natBytes, natBytesAux] using hb
    omega
  · rw [natBytes_eq, if_neg h] at hb
    simp only [List.mem_reverse, List.mem_map] at hb
    obtain ⟨d, hd, rfl⟩ := hb
    have : d < 10 := Nat.digits_lt_base (by norm_num) hd
    simp only [digitByte]
    omega

theorem natBytes_ne_nil (n : Nat) : natBytes n ≠ [] := by
  by_cases h : n = 0
  · subst h; simp [natBytes, natBytesAux]
  · rw [natBytes_eq, if_neg h]
    simp [Nat.digits_ne_nil_iff_ne_zero.mpr h]

theorem parseIntB_intBytes (i : Int) : parseIntB (intBytes i) = i := by
  by_cases h : i < 0
  · rw [intBytes, if_pos h]
    show parseIntB (45 :: natBytes i.natAbs) = i
    rw [parseIntB, if_pos (by rfl)]
    show -(parseNatB (natBytes i.natAbs) : Int) = i
    rw [parseNatB_natBytes]
    omega
  · rw [intBytes, if_neg h, parseIntB, if_neg, parseNatB_natBytes]
    · omega
    · intro hcon
      rcases hl : natBytes i.toNat with _ | ⟨b, r⟩
      · exact natBytes_ne_nil _ hl
      · rw [hl] at hcon
        have hb45 : b = 45 := by simpa using hcon
        have := natBytes_mem_digit i.toNat b (by rw [hl]; simp)
        omega

/-- Bytes of a decimal numeral are never whitespace. -/
theorem natBytes_no_space (n : Nat) : ∀ b ∈ natBytes n, isPySpace b = false := by
  intro b hb
  have := natBytes_mem_digit n b hb
  simp only [isPySpace]
  simp only [decide_eq_true_eq, Bool.or_eq_false_iff, decide_eq_false_iff_not]
  omega

theorem intBytes_no_space (i : Int) : ∀ b ∈ intBytes i, isPySpace b = false := by
  intro b hb
  by_cases h : i < 0
  · rw [intBytes, if_pos h, List.mem_cons] at hb
    rcases hb with rfl | hb
    · simp [isPySpace]
    · exact natBytes_no_space _ _ hb
  · rw [intBytes, if_neg h] at hb
    exact natBytes_no_space _ _ hb

theorem dropWhile_of_forall_not {p : Nat → Bool} {l : List Nat}
    (h : ∀ b ∈ l, p b = false) : l.dropWhile p = l := by
  cases l with
  | nil => rfl
  | cons a l =>
    rw [List.dropWhile_cons, if_neg]
    simp [h a (by simp)]

/-- strip is the identity on space-free byte lists. -/
theorem stripB_of_no_space {l : List Nat} (h : ∀ b ∈ l, isPySpace b = false) :
    stripB l = l := by
  have h1 : l.reverse.dropWhile isPySpace = l.reverse :=
    dropWhile_of_forall_not (fun b hb => h b (List.mem_reverse.mp hb))
  unfold stripB
  rw [h1, List.reverse_reverse, dropWhile_of_forall_not h]

/-- Trailing space padding is invisible to strip. -/
theorem stripB_append_spaces (l : List Nat) (k : Nat) :
    stripB (l ++ List.replicate k 32) = stripB l := by
  have h1 : ∀ m (x : List Nat),
      (List.replicate m 32 ++ x).dropWhile isPySpace = x.dropWhile isPySpace := by
    intro m
    induction m with
    | zero => intro x; simp
    | succ j ih =>
      intro x
      rw [List.replicate_succ, List.cons_append, List.dropWhile_cons,
        if_pos (by simp [isPySpace])]
      exact ih x
  unfold stripB
  rw [List.reverse_append, List.reverse_replicate, h1]

/-- strip undoes padtrim on values that fit and are already stripped. -/
theorem stripB_padtrim {l : List Nat} {num : Nat} (hlen : l.length ≤ num)
    (hs : stripB l = l) : stripB (padtrim l num) = l := by
  rw [padtrim, if_pos hlen, stripB_append_spaces, hs]

theorem padtrim_length {l : List Nat} {num : Nat} (hlen : l.length ≤ num) :
    (padtrim l num).length = num := by
  rw [padtrim, if_pos hlen]
  simp
  omega

theorem stripB_natBytes (n : Nat) : stripB (natBytes n) = natBytes n :=
  stripB_of_no_space (natBytes_no_space n)

theorem stripB_intBytes (i : Int) : stripB (intBytes i) = intBytes i :=
  stripB_of_no_space (intBytes_no_space i)

/-- Full numeric field round trip: pad a numeral to a field, strip and parse. -/
theorem parse_field_nat (n w : Nat) (h : (natBytes n).length ≤ w) :
    parseNatB (stripB (padtrim (natBytes n) w)) = n := by
  rw [stripB_padtrim h (stripB_natBytes n), parseNatB_natBytes]

theorem parse_field_int (i : Int) (w : Nat) (h : (intBytes i).length ≤ w) :
    parseIntB (stripB (padtrim (intBytes i) w)) = i := by
  rw [stripB_padtrim h (stripB_intBytes i), parseIntB_intBytes]

/-! ### Generic lemmas about concatenations of uniform-length chunks -/

/-- Reading one field of n bytes from the front of a byte stream. -/
def rd (n : Nat) (s : List Nat) : List Nat × List Nat := (s.take n, s.drop n)

theorem rd_exact {l : List Nat} {n : Nat} (h : l.length = n) (r : List Nat) :
    rd n (l ++ r) = (l, r) := by
  simp [rd, ← h, List.take_left, List.drop_left]

/-- Reading k consecutive fields of w bytes each. -/
def rdChunks (w : Nat) : Nat → List Nat → List (List Nat) × List Nat
  | 0, s => ([], s)
  | k + 1, s =>
    let p := rdChunks w k (s.drop w)
    (s.take w :: p.1, p.2)

theorem rdChunks_exact {w : Nat} (ls : List (List Nat))
    (h : ∀ l ∈ ls, l.length = w) (r : List Nat) :
    rdChunks w ls.length (ls.flatten ++ r) = (ls, r) := by
  induction ls with
  | nil => simp [rdChunks]
  | cons a ls ih =>
    have ha : a.length = w := h a (by simp)
    have hls : ∀ l ∈ ls, l.length = w := fun l hl => h l (by simp [hl])
    simp only [List.length_cons, List.flatten_cons, List.append_assoc, rdChunks]
    have ht : (a ++ (ls.flatten ++ r)).take w = a := by
      rw [← ha]; exact List.take_left _ _
    have hd : (a ++ (ls.flatten ++ r)).drop w = ls.flatten ++ r := by
      rw [← ha]; exact List.drop_left _ _
    rw [ht, hd, ih hls]

theorem flatten_length_uniform {α : Type} {ls : List (List α)} {w : Nat}
    (h : ∀ l ∈ ls, l.length = w) : ls.flatten.length = ls.length * w := by
  induction ls with
  | nil => simp
  | cons a ls ih =>
    have ha : a.length = w := h a (by simp)
    have := ih (fun l hl => h l (by simp [hl]))
    simp [ha, this]
    ring

theorem flatten_take_uniform {α : Type} {ls : List (List α)} {w : Nat}
    (h : ∀ l ∈ ls, l.length = w) (m : Nat) :
    ls.flatten.take (m * w) = (ls.take m).flatten := by
  induction ls generalizing m with
  | nil => simp
  | cons a ls ih =>
    cases m with
    | zero => simp
    | succ j =>
      have ha : a.length = w := h a (by simp)
      have hls : ∀ l ∈ ls, l.length = w := fun l hl => h l (by simp [hl])
      simp only [List.flatten_cons, List.take_succ_cons]
      rw [Nat.succ_mul, Nat.add_comm (j * w) w, List.take_append_eq_append_take,
        List.take_of_length_le (by omega), ha, Nat.add_sub_cancel_left, ih hls]

theorem flatten_drop_uniform {α : Type} {ls : List (List α)} {w : Nat}
    (h : ∀ l ∈ ls, l.length = w) (m : Nat) :
    ls.flatten.drop (m * w) = (ls.drop m).flatten := by
  induction ls generalizing m with
  | nil => simp
  | cons a ls ih =>
    cases m with
    | zero => simp
    | succ j =>
      have ha : a.length = w := h a (by simp)
      have hls : ∀ l ∈ ls, l.length = w := fun l hl => h l (by simp [hl])
      simp only [List.flatten_cons, List.drop_succ_cons]
      rw [Nat.succ_mul, Nat.add_comm (j * w) w, List.drop_append_eq_append_drop,
        List.drop_of_length_le (by omega), ha, Nat.add_sub_cancel_left, ih hls]
      simp

/-! ### Sample codec: EDFWriter.write_block and EDFReader.read_block inner loop

write_block computes raw = (data[i] - offset[i]) / calibrate[i] in float64,
then converts with np.asarray(raw, dtype=np.int16) - a C cast that truncates
toward zero and wraps to 16 bits - and emits each value with pack("h", x),
two bytes, least significant first. read_block reads
n_samps[i] * data_size bytes and decodes with unpack("<{n}h", buf), which
raises struct.error unless the buffer is exactly 2*n bytes; decoded values
are mapped through raw * calibrate[i] + offset[i].
-/

/-- Truncation toward zero of a rational, the effect of the C float-to-int
cast performed by np.asarray(..., dtype=np.int16). -/
def truncQ (q : ℚ) : Int :=
  if 0 ≤ q.num then q.num / (q.den : Int) else -((-q.num) / (q.den : Int))

/-- truncQ is floor on nonnegative and ceiling on negative rationals. -/
theorem truncQ_eq (q : ℚ) : truncQ q = if 0 ≤ q then ⌊q⌋ else ⌈q⌉ := by
  unfold truncQ
  by_cases h : 0 ≤ q
  · rw [if_pos (Rat.num_nonneg.mpr h), if_pos h, Rat.floor_def]
  · rw [if_neg (by rw [Rat.num_nonneg]; exact h), if_neg h]
    have h1 : ⌊-q⌋ = (-q).num / ((-q).den : Int) := Rat.floor_def
    rw [Rat.num_neg_eq_neg_num, Rat.den_neg_eq_den] at h1
    rw [← h1, Int.floor_neg, neg_neg]

/-- Wrap an integer into the int16 range, the numpy int16 overflow rule. -/
def wrap16 (d : Int) : Int := (d + 32768) % 65536 - 32768

/-- The digital value stored by write_block for physical sample x on a
channel with calibration (offset, scale): truncation toward zero of
(x - offset) / scale, wrapped to int16.  (Float64 rounding of the two
arithmetic operations is not modelled; on the values the claims quantify
over it is exact up to the final cast.) -/
def writeDigital (x offset scale : ℚ) : Int := wrap16 (truncQ ((x - offset) / scale))

/-- pack("h", x) for x in int16 range: two bytes, little endian,
two-complement. -/
def packH (x : Int) : List Nat :=
  [(x % 65536).toNat % 256, (x % 65536).toNat / 256]

/-- unpack("<h", b) on a two-byte buffer. -/
def unpackH (b0 b1 : Nat) : Int :=
  if b0 + 256 * b1 < 32768 then ((b0 + 256 * b1 : Nat) : Int)
  else ((b0 + 256 * b1 : Nat) : Int) - 65536

/-- The physical value returned by read_block for a stored digital value. -/
def readPhysical (d : Int) (calibrate offset : ℚ) : ℚ := d * calibrate + offset

theorem truncQ_intCast (z : Int) : truncQ (z : ℚ) = z := by
  rw [truncQ_eq]
  split <;> simp

/-- The cast drops strictly less than one unit. -/
theorem abs_sub_truncQ_lt_one (q : ℚ) : |q - truncQ q| < 1 := by
  rw [truncQ_eq]
  split
  case isTrue h =>
    have h1 := Int.floor_le q
    have h2 := Int.lt_floor_add_one q
    rw [abs_of_nonneg (by linarith)]
    linarith
  case isFalse h =>
    have h1 := Int.le_ceil q
    have h2 := Int.ceil_lt_add_one q
    rw [abs_of_nonpos (by linarith)]
    linarith

/-- The cast moves toward zero. -/
theorem abs_truncQ_le (q : ℚ) : |(truncQ q : ℚ)| ≤ |q| := by
  rw [truncQ_eq]
  split
  case isTrue h =>
    have h0 : (0 : ℚ) ≤ (⌊q⌋ : ℚ) := by
      exact_mod_cast Int.floor_nonneg.mpr h
    rw [abs_of_nonneg h0, abs_of_nonneg h]
    exact Int.floor_le q
  case isFalse h =>
    push_neg at h
    have hc : ⌈q⌉ ≤ 0 := Int.ceil_le.mpr (by exact_mod_cast le_of_lt h)
    have h0 : (⌈q⌉ : ℚ) ≤ 0 := by exact_mod_cast hc
    rw [abs_of_nonpos h0, abs_of_nonpos (le_of_lt h)]
    simp only [neg_le_neg_iff]
    exact Int.le_ceil q

theorem truncQ_sign_nonneg {q : ℚ} (h : 0 ≤ q) : 0 ≤ truncQ q := by
  rw [truncQ_eq, if_pos h]
  exact Int.floor_nonneg.mpr h

theorem truncQ_sign_nonpos {q : ℚ} (h : q ≤ 0) : truncQ q ≤ 0 := by
  by_cases hz : 0 ≤ q
  · have : q = 0 := le_antisymm h hz
    simp [this, truncQ_eq]
  · rw [truncQ_eq, if_neg hz]
    exact Int.ceil_le.mpr (by exact_mod_cast h)

/-- wrap16 is the identity on the int16 range. -/
theorem wrap16_eq_self {d : Int} (h1 : -32768 ≤ d) (h2 : d ≤ 32767) :
    wrap16 d = d := by
  unfold wrap16
  omega

theorem wrap16_mem_range (d : Int) : -32768 ≤ wrap16 d ∧ wrap16 d ≤ 32767 := by
  unfold wrap16
  omega

/-- unpack("<h") inverts pack("h") on int16 values. -/
theorem unpackH_packH {x : Int} (h1 : -32768 ≤ x) (h2 : x ≤ 32767) :
    unpackH (((x % 65536).toNat) % 256) (((x % 65536).toNat) / 256) = x := by
  unfold unpackH
  split <;> omega

/-- Decode of the little-endian int16 byte stream read by read_block. -/
def decode16 : List Nat → List Int
  | b0 :: b1 :: rest => unpackH b0 b1 :: decode16 rest
  | _ => []

theorem decode16_pack_cons {x : Int} (h1 : -32768 ≤ x) (h2 : x ≤ 32767)
    (r : List Nat) : decode16 (packH x ++ r) = x :: decode16 r := by
  show decode16 (((x % 65536).toNat % 256) :: ((x % 65536).toNat / 256) :: r)
      = x :: decode16 r
  rw [decode16, unpackH_packH h1 h2]

theorem packH_length (x : Int) : (packH x).length = 2 := rfl

/-- Decoding the concatenated packs of a list of in-range digital values
recovers the list. -/
theorem decode16_flatten_pack {ds : List Int}
    (h : ∀ d ∈ ds, -32768 ≤ d ∧ d ≤ 32767) :
    decode16 ((ds.map packH).flatten) = ds := by
  induction ds with
  | nil => rfl
  | cons d ds ih =>
    have hd := h d (by simp)
    simp only [List.map_cons, List.flatten_cons]
    rw [decode16_pack_cons hd.1 hd.2, ih (fun x hx => h x (by simp [hx]))]

/-- Per-sample round trip: decoding the stored digital value recovers the
physical sample to within strictly less than one calibration step, provided
the digital value does not overflow int16. -/
theorem readPhysical_writeDigital {x offset scale : ℚ} (hs : scale ≠ 0)
    (h1 : -32768 ≤ truncQ ((x - offset) / scale))
    (h2 : truncQ ((x - offset) / scale) ≤ 32767) :
    |readPhysical (writeDigital x offset scale) scale offset - x| < |scale| := by
  set t : ℚ := (x - offset) / scale with ht
  have hw : writeDigital x offset scale = truncQ t := by
    rw [writeDigital, ← ht, wrap16_eq_self h1 h2]
  have hts : t * scale = x - offset := by
    field_simp [ht]
  have key : readPhysical (writeDigital x offset scale) scale offset - x
      = (truncQ t - t) * scale := by
    rw [hw, readPhysical]
    nlinarith [hts]
  rw [key, abs_mul]
  have h3 : |(truncQ t : ℚ) - t| < 1 := by
    have := abs_sub_truncQ_lt_one t
    rwa [abs_sub_comm] at this
  have h4 : 0 < |scale| := abs_pos.mpr hs
  nlinarith

/-! ### Whole-block codec

write_block walks the channels in order, encodes the samples of each channel
and appends; it always emits two bytes per sample because the pack format "h"
is hard-coded.  read_block seeks to
data_offset + block * (sum(n_samps) * data_size), then reads
n_samps[i] * data_size bytes per channel in order, unpacking each buffer
with the hard-coded two-byte format "<{n}h"; unpack raises struct.error
(modelled as none) whenever the buffer length is not exactly 2 * n.
-/

/-- Bytes written by write_block for one channel. -/
def encChannel (xs : List ℚ) (offset scale : ℚ) : List Nat :=
  ((xs.map (fun x => writeDigital x offset scale)).map packH).flatten

/-- Bytes written by write_block for a whole block: channel payloads
(samples, offset, scale) in channel order. -/
def encBlock : List (List ℚ × ℚ × ℚ) → List Nat
  | [] => []
  | (xs, o, s) :: rest => encChannel xs o s ++ encBlock rest

/-- The per-channel reads of read_block, with the running file position made
explicit: each channel consumes n * data_size bytes starting at pos, and
unpack("<{n}h") demands exactly 2 * n of them. -/
def readChannels (file : List Nat) (dataSize : Nat) :
    Nat → List (Nat × ℚ × ℚ) → Option (List (List ℚ))
  | _, [] => some []
  | pos, (n, c, o) :: rest =>
    let buf := (file.drop pos).take (n * dataSize)
    if buf.length = 2 * n then
      match readChannels file dataSize (pos + n * dataSize) rest with
      | some ds => some (((decode16 buf).map (fun d => readPhysical d c o)) :: ds)
      | none => none
    else none

/-- read_block: position the cursor at the block and read every channel. -/
def readBlockM (file : List Nat) (dataOffset dataSize : Nat)
    (chans : List (Nat × ℚ × ℚ)) (block : Nat) : Option (List (List ℚ)) :=
  let blocksize := (chans.map (fun t => t.1)).sum * dataSize
  readChannels file dataSize (dataOffset + block * blocksize) chans

theorem encChannel_length (xs : List ℚ) (o s : ℚ) :
    (encChannel xs o s).length = 2 * xs.length := by
  unfold encChannel
  rw [@flatten_length_uniform _ _ 2 (by
    intro l hl
    simp only [List.mem_map] at hl
    obtain ⟨d, _, rfl⟩ := hl
    exact packH_length d)]
  simp [Nat.mul_comm]

theorem encBlock_length (chans : List (List ℚ × ℚ × ℚ)) :
    (encBlock chans).length = 2 * (chans.map (fun t => t.1.length)).sum := by
  induction chans with
  | nil => rfl
  | cons c rest ih =>
    obtain ⟨xs, o, s⟩ := c
    simp only [encBlock, List.length_append, encChannel_length, ih,
      List.map_cons, List.sum_cons]
    ring

/-- Decoding one encoded channel recovers each physical sample through the
affine map; no hypotheses because wrap16 keeps every digital value in
int16 range. -/
theorem decode16_encChannel (xs : List ℚ) (o s : ℚ) :
    decode16 (encChannel xs o s)
      = xs.map (fun x => writeDigital x o s) := by
  unfold encChannel
  exact decode16_flatten_pack (fun d hd => by
    simp only [List.mem_map] at hd
    obtain ⟨x, _, rfl⟩ := hd
    exact wrap16_mem_range _)

/-- Reading back a block written with data_size = 2: each channel decodes to
the round-tripped physical values. The file may carry arbitrary bytes
before and after the encoded block, with the read cursor landing exactly on
it. -/
theorem readChannels_encBlock (chansW : List (List ℚ × ℚ × ℚ))
    (pre post : List Nat) :
    readChannels (pre ++ encBlock chansW ++ post) 2 pre.length
        (chansW.map (fun t => (t.1.length, t.2.2, t.2.1)))
      = some (chansW.map (fun t =>
          t.1.map (fun x => readPhysical (writeDigital x t.2.1 t.2.2) t.2.2 t.2.1))) := by
  induction chansW generalizing pre with
  | nil => simp [readChannels]
  | cons c rest ih =>
    obtain ⟨xs, o, s⟩ := c
    have hlen : (encChannel xs o s).length = xs.length * 2 := by
      rw [encChannel_length]; ring
    have htake : ((encChannel xs o s ++ (encBlock rest ++ post)).take (xs.length * 2))
        = encChannel xs o s := by
      rw [← hlen, List.take_left]
    have hrec := ih (pre ++ encChannel xs o s)
    simp only [List.append_assoc, List.length_append, hlen] at hrec
    simp only [List.map_cons, encBlock, List.append_assoc, readChannels]
    rw [List.drop_left, htake, encChannel_length, if_pos rfl, hrec,
      decode16_encChannel]
    simp [List.map_map, Function.comp]

/-! ### Calibration derivation (read_header lines 537-546, write_header 299-311)

calibrate = (physical_max - physical_min) / (digital_max - digital_min)
offset    = physical_min - calibrate * digital_min
followed by a per-channel loop that replaces (calibrate, offset) with (1, 0)
whenever calibrate[ch] < 0.

The division is numpy float64 elementwise division: a zero denominator does
not raise, it produces +inf, -inf or nan according to the sign of the
numerator (with a RuntimeWarning only).  The comparison `calibrate[ch] < 0`
is false for +inf and for nan and true for -inf.  FV models exactly this
value domain; the rational arithmetic is exact for the sign and comparison
facts the code depends on.
-/

/-- A float64 value as far as the calibration code distinguishes them:
a finite (exactly represented) value, an infinity, or nan. -/
inductive FV where
  | q (x : ℚ)
  | pinf
  | ninf
  | nan
deriving DecidableEq

/-- Float64 division including the zero-denominator cases. -/
def fdivFV (num den : ℚ) : FV :=
  if den ≠ 0 then .q (num / den)
  else if 0 < num then .pinf
  else if num < 0 then .ninf
  else .nan

/-- Float64 multiplication of a possibly non-finite value by a finite one. -/
def fmulFV : FV → ℚ → FV
  | .q a, b => .q (a * b)
  | .pinf, b => if 0 < b then .pinf else if b < 0 then .ninf else .nan
  | .ninf, b => if 0 < b then .ninf else if b < 0 then .pinf else .nan
  | .nan, _ => .nan

/-- Float64 subtraction of a possibly non-finite value from a finite one. -/
def fsubFV : ℚ → FV → FV
  | a, .q b => .q (a - b)
  | _, .pinf => .ninf
  | _, .ninf => .pinf
  | _, .nan => .nan

/-- The numpy comparison v < 0: false on +inf and nan, true on -inf. -/
def fltZeroFV : FV → Bool
  | .q x => x < 0
  | .pinf => false
  | .ninf => true
  | .nan => false

/-- Per-channel calibration as derived by read_header and write_header:
raw scale and offset first, then the reset loop for calibrate[ch] < 0. -/
def calibChannel (pmin pmax dmin dmax : ℚ) : FV × FV :=
  let calibrate := fdivFV (pmax - pmin) (dmax - dmin)
  let offset := fsubFV pmin (fmulFV calibrate dmin)
  if fltZeroFV calibrate then (.q 1, .q 0) else (calibrate, offset)

/-- All channels at once (the numpy expressions are elementwise). -/
def calibAll (pmin pmax dmin dmax : List ℚ) : List (FV × FV) :=
  (pmin.zip (pmax.zip (dmin.zip dmax))).map
    (fun t => calibChannel t.1 t.2.1 t.2.2.1 t.2.2.2)

/-- Finite-valued projection of the calibration used by the writer model:
exact whenever the digital range is nonzero (the FV model covers the
zero-range cases; see calibChannel_q below). -/
def calibScaleQ (pmin pmax dmin dmax : Int) : ℚ :=
  ((pmax : ℚ) - (pmin : ℚ)) / ((dmax : ℚ) - (dmin : ℚ))

def calibOffsetQ (pmin pmax dmin dmax : Int) : ℚ :=
  (pmin : ℚ) - calibScaleQ pmin pmax dmin dmax * (dmin : ℚ)

/-- Scale after the calibrate[ch] < 0 reset loop. -/
def resetScaleQ (pmin pmax dmin dmax : Int) : ℚ :=
  if calibScaleQ pmin pmax dmin dmax < 0 then 1 else calibScaleQ pmin pmax dmin dmax

/-- Offset after the calibrate[ch] < 0 reset loop. -/
def resetOffsetQ (pmin pmax dmin dmax : Int) : ℚ :=
  if calibScaleQ pmin pmax dmin dmax < 0 then 0 else calibOffsetQ pmin pmax dmin dmax

/-- On a nonzero digital range the FV calibration agrees with the rational
projection used by the writer model. -/
theorem calibChannel_q {pmin pmax dmin dmax : Int} (h : dmax ≠ dmin) :
    calibChannel (pmin : ℚ) (pmax : ℚ) (dmin : ℚ) (dmax : ℚ)
      = (.q (resetScaleQ pmin pmax dmin dmax), .q (resetOffsetQ pmin pmax dmin dmax)) := by
  have hden : ((dmax : ℚ) - (dmin : ℚ)) ≠ 0 := by
    intro hc
    apply h
    have : (dmax : ℚ) = (dmin : ℚ) := by linarith
    exact_mod_cast this
  unfold calibChannel resetScaleQ resetOffsetQ calibOffsetQ calibScaleQ
  rw [fdivFV, if_pos hden]
  by_cases hneg : ((pmax : ℚ) - (pmin : ℚ)) / ((dmax : ℚ) - (dmin : ℚ)) < 0
  · simp only [fltZeroFV, hneg]
    simp
  · simp only [fltZeroFV, hneg]
    simp [fmulFV, fsubFV]

/-! ### Header model

The header is the tuple (meas_info, chan_info).  String-valued entries are
byte lists; physical/digital bounds are modelled as integer-valued (the
source stores floats, and writes them with str(); integer inputs give the
plain decimal text modelled here).  record_length is modelled as a positive
integer for the same reason.
-/

structure MeasInfo where
  subject_id : List Nat
  recording_id : List Nat
  subtype : List Nat
  day : Nat
  month : Nat
  year : Nat
  hour : Nat
  minute : Nat
  second : Nat
  record_length : Nat
  nchan : Nat
deriving DecidableEq

structure ChanInfo where
  ch_names : List (List Nat)
  transducers : List (List Nat)
  units : List (List Nat)
  physical_min : List Int
  physical_max : List Int
  digital_min : List Int
  digital_max : List Int
  n_samps : List Nat
deriving DecidableEq

/-- Sample width from the subtype tag (write_header lines 226-229 and
read_header lines 453-456 use the same rule). -/
def dataSizeOf (subtype : List Nat) : Nat :=
  if subtype = bytesOf "24BIT" ∨ subtype = bytesOf "bdf" then 3 else 2

/-- Python "{:0>2d}".format(n): left zero-pad to at least two digits. -/
def fmt2 (n : Nat) : List Nat :=
  if (natBytes n).length = 1 then 48 :: natBytes n else natBytes n

/-- "dd.mm.yy"-style field (46 is the dot byte). -/
def dateField (a b c : Nat) : List Nat :=
  fmt2 a ++ (46 :: (fmt2 b ++ (46 :: fmt2 c)))

/-- The fixed 256-byte measurement part of the header written by
write_header, with the record-count field abstracted so that the close
patch can be expressed over the same shape. -/
def encodeMeas (m : MeasInfo) (nrecField : List Nat) : List Nat :=
  padtrim (natBytes 0) 8
  ++ padtrim m.subject_id 80
  ++ padtrim m.recording_id 80
  ++ padtrim (dateField m.day m.month m.year) 8
  ++ padtrim (dateField m.hour m.minute m.second) 8
  ++ padtrim (natBytes (256 + 256 * m.nchan)) 8
  ++ List.replicate 44 32
  ++ nrecField
  ++ padtrim (natBytes m.record_length) 8
  ++ padtrim (natBytes m.nchan) 4

/-- The per-channel part of the header written by write_header: nine
column-major arrays (prefiltering and reserved are written blank). -/
def encodeChan (c : ChanInfo) (nchan : Nat) : List Nat :=
  (c.ch_names.map (fun s => padtrim s 16)).flatten
  ++ (c.transducers.map (fun s => padtrim s 80)).flatten
  ++ (c.units.map (fun s => padtrim s 8)).flatten
  ++ (c.physical_min.map (fun v => padtrim (intBytes v) 8)).flatten
  ++ (c.physical_max.map (fun v => padtrim (intBytes v) 8)).flatten
  ++ (c.digital_min.map (fun v => padtrim (intBytes v) 8)).flatten
  ++ (c.digital_max.map (fun v => padtrim (intBytes v) 8)).flatten
  ++ List.replicate (nchan * 80) 32
  ++ (c.n_samps.map (fun v => padtrim (natBytes v) 8)).flatten
  ++ List.replicate (nchan * 32) 32

/-- write_header output; the record-count field is the sentinel -1. -/
def encodeHeader (m : MeasInfo) (c : ChanInfo) : List Nat :=
  encodeMeas m (padtrim (intBytes (-1)) 8) ++ encodeChan c m.nchan

/-- Per-channel calibration pair (scale, offset) the writer session derives
in write_header (post reset loop). -/
def chanCalib (c : ChanInfo) (i : Nat) : ℚ × ℚ :=
  (resetScaleQ (c.physical_min.getD i 0) (c.physical_max.getD i 0)
      (c.digital_min.getD i 0) (c.digital_max.getD i 0),
   resetOffsetQ (c.physical_min.getD i 0) (c.physical_max.getD i 0)
      (c.digital_min.getD i 0) (c.digital_max.getD i 0))

/-- Bytes appended by one write_block call (loop over range(nchan)). -/
def writeBlockBytes (nchan : Nat) (c : ChanInfo) (data : List (List ℚ)) : List Nat :=
  encBlock ((List.range nchan).map
    (fun i => (data.getD i [], (chanCalib c i).2, (chanCalib c i).1)))

/-- File content after write_header and the write_block calls. -/
def writerFile (m : MeasInfo) (c : ChanInfo) (blocks : List (List (List ℚ))) :
    List Nat :=
  encodeHeader m c ++ (blocks.map (writeBlockBytes m.nchan c)).flatten

/-- EDFWriter.close: stream-copy the file, replacing bytes 236..244 with the
final record count; the copied tail is the rest of the header followed by
n_records blocks (consecutive reads of the source handle). -/
def closeCopy (file : List Nat) (n_records dataOffset blocksize : Nat) : List Nat :=
  file.take 236
  ++ padtrim (natBytes n_records) 8
  ++ (file.drop 244).take (dataOffset - 236 - 8)
  ++ (file.drop dataOffset).take (n_records * blocksize)

/-- The on-disk bytes after the full writer session: open, write_header,
one write_block per block, close. -/
def finalFile (m : MeasInfo) (c : ChanInfo) (blocks : List (List (List ℚ))) :
    List Nat :=
  closeCopy (writerFile m c blocks) blocks.length (256 + 256 * m.nchan)
    (c.n_samps.sum * dataSizeOf m.subtype)

/-! ### Prefiltering analysis (read_header lines 488-522)

prefiltering = [fid.read(80).strip() for ch in channels][:-1] keeps only the
first nchan-1 channels.  Tokens are collected per channel with
re.findall("HP:\s+(\w+)") (resp. "LP:"), and np.ravel flattens the
per-channel lists (modelled by flatten; faithful when every channel yields
the same number of tokens, which covers the uniform inputs quantified over
here - ragged numpy inputs produce an object array whose max/float calls
raise, not the behaviour the claims describe).  The all(highpass) test is
numpy truthiness of each token string, i.e. nonemptiness - not agreement of
the values.
-/

/-- A regex word byte: [0-9A-Za-z_]. -/
def isWordB (b : Nat) : Bool :=
  (48 ≤ b && b ≤ 57) || (65 ≤ b && b ≤ 90) || (97 ≤ b && b ≤ 122) || b = 95

/-- Try to match t1 t2 ":" whitespace+ word+ at the head of the list,
returning the word and the rest. 58 is the colon byte. -/
def matchTokAt (t1 t2 : Nat) : List Nat → Option (List Nat × List Nat)
  | a :: b :: c :: rest =>
    if a = t1 && b = t2 && c = 58 then
      if (rest.takeWhile isPySpace).isEmpty then none
      else
        let r2 := rest.dropWhile isPySpace
        let w := r2.takeWhile isWordB
        if w.isEmpty then none else some (w, r2.dropWhile isWordB)
    else none
  | _ => none

/-- Left-to-right non-overlapping scan, as re.findall does: on a match
continue after it, otherwise advance one byte. -/
def findTokAux (t1 t2 : Nat) : Nat → List Nat → List (List Nat)
  | 0, _ => []
  | _ + 1, [] => []
  | fuel + 1, b :: rest =>
    match matchTokAt t1 t2 (b :: rest) with
    | some (w, r3) => w :: findTokAux t1 t2 fuel r3
    | none => findTokAux t1 t2 fuel rest

/-- re.findall("XY:\s+(\w+)", l) for the two tag bytes X Y. -/
def findTok (t1 t2 : Nat) (l : List Nat) : List (List Nat) :=
  findTokAux t1 t2 l.length l

/-- Lexicographic strict order on byte strings, the comparison used by
np.max / np.min on string arrays. -/
def lexLt : List Nat → List Nat → Bool
  | [], [] => false
  | [], _ :: _ => true
  | _ :: _, [] => false
  | a :: as, b :: bs => if a < b then true else if b < a then false else lexLt as bs

def maxLex (ls : List (List Nat)) : List Nat :=
  ls.foldl (fun acc x => if lexLt acc x then x else acc) (ls.headD [])

def minLex (ls : List (List Nat)) : List Nat :=
  ls.foldl (fun acc x => if lexLt x acc then x else acc) (ls.headD [])

/-- float() on an all-digit token (the only tokens the claims reach;
other tokens would raise ValueError in the source). -/
def tokVal (l : List Nat) : ℚ := (parseNatB l : ℚ)

/-- HP tokens of the stripped prefiltering chunks, after the [:-1] slice
and the ravel flattening. -/
def hpTokens (pref : List (List Nat)) : List (List Nat) :=
  (pref.dropLast.map (findTok 72 80)).flatten

def lpTokens (pref : List (List Nat)) : List (List Nat) :=
  (pref.dropLast.map (findTok 76 80)).flatten

/-- meas_info["highpass"] and whether the disagreement warning fired. -/
def highpassCalc (pref : List (List Nat)) : ℚ × Bool :=
  let hp := hpTokens pref
  if hp.length = 0 then (0, false)
  else if hp.all (fun s => !s.isEmpty) then
    if hp.headD [] = bytesOf "NaN" then (0, false)
    else if hp.headD [] = bytesOf "DC" then (0, false)
    else (tokVal (hp.headD []), false)
  else (tokVal (maxLex hp), true)

/-- meas_info["lowpass"] (None modelled as none) and the warning flag. -/
def lowpassCalc (pref : List (List Nat)) : Option ℚ × Bool :=
  let lp := lpTokens pref
  if lp.length = 0 then (none, false)
  else if lp.all (fun s => !s.isEmpty) then
    if lp.headD [] = bytesOf "NaN" then (none, false)
    else (some (tokVal (lp.headD [])), false)
  else (some (tokVal (minLex lp)), true)

/-! ### Header decoder (EDFReader.read_header) -/

/-- A decimal digit byte. -/
def isDigitB (b : Nat) : Bool := 48 ≤ b && b ≤ 57

/-- Scan for maximal digit runs: emit the run at a digit byte and continue
after it, skip one byte otherwise. -/
def digitRunsAux : Nat → List Nat → List (List Nat)
  | 0, _ => []
  | _ + 1, [] => []
  | fuel + 1, b :: rest =>
    if isDigitB b then
      ((b :: rest).takeWhile isDigitB) :: digitRunsAux fuel ((b :: rest).dropWhile isDigitB)
    else digitRunsAux fuel rest

/-- re.findall("\d+", l): the maximal runs of digit bytes, in order.  Used
by read_header to split the date and time fields. -/
def digitRuns (l : List Nat) : List (List Nat) := digitRunsAux l.length l

theorem takeWhile_all_append {p : Nat → Bool} {ds : List Nat}
    (h : ∀ b ∈ ds, p b = true) (l : List Nat) :
    (ds ++ l).takeWhile p = ds ++ l.takeWhile p := by
  induction ds with
  | nil => simp
  | cons d ds ih =>
    rw [List.cons_append, List.takeWhile_cons, if_pos (h d (by simp)),
      ih (fun b hb => h b (by simp [hb])), List.cons_append]

theorem dropWhile_all_append {p : Nat → Bool} {ds : List Nat}
    (h : ∀ b ∈ ds, p b = true) (l : List Nat) :
    (ds ++ l).dropWhile p = l.dropWhile p := by
  induction ds with
  | nil => simp
  | cons d ds ih =>
    rw [List.cons_append, List.dropWhile_cons, if_pos (h d (by simp)),
      ih (fun b hb => h b (by simp [hb]))]

/-- One digit run at the head of the scan. -/
theorem digitRunsAux_run (fuel : Nat) {ds : List Nat} (l : List Nat)
    (hne : ds ≠ []) (hds : ∀ b ∈ ds, isDigitB b = true)
    (hl1 : l.takeWhile isDigitB = []) (hl2 : l.dropWhile isDigitB = l) :
    digitRunsAux (fuel + 1) (ds ++ l) = ds :: digitRunsAux fuel l := by
  cases ds with
  | nil => exact absurd rfl hne
  | cons d ds =>
    rw [List.cons_append, digitRunsAux, if_pos (hds d (by simp)),
      ← List.cons_append, takeWhile_all_append hds, hl1,
      dropWhile_all_append hds, hl2, List.append_nil]

/-- One skipped non-digit byte. -/
theorem digitRunsAux_skip (fuel : Nat) {b : Nat} (l : List Nat)
    (hb : isDigitB b = false) :
    digitRunsAux (fuel + 1) (b :: l) = digitRunsAux fuel l := by
  rw [digitRunsAux, if_neg (by simp [hb])]

theorem digitRunsAux_nil (fuel : Nat) : digitRunsAux fuel [] = [] := by
  cases fuel <;> rfl

/-- The dot-separated all-digit triple of the date and time fields parses
into exactly its three runs. -/
theorem digitRuns_three {a b c : List Nat}
    (hna : a ≠ []) (ha : ∀ x ∈ a, isDigitB x = true)
    (hnb : b ≠ []) (hb : ∀ x ∈ b, isDigitB x = true)
    (hnc : c ≠ []) (hc : ∀ x ∈ c, isDigitB x = true) :
    digitRuns (a ++ (46 :: (b ++ (46 :: c)))) = [a, b, c] := by
  have hdot : ¬ (isDigitB 46 = true) := by decide
  have hpos : ∀ {x : List Nat}, x ≠ [] → 1 ≤ x.length := by
    intro x hx
    cases x with
    | nil => exact absurd rfl hx
    | cons _ _ => simp
  have htk : ∀ (x : List Nat), (46 :: x).takeWhile isDigitB = [] :=
    fun x => List.takeWhile_cons_of_neg hdot
  have hdw : ∀ (x : List Nat), (46 :: x).dropWhile isDigitB = 46 :: x :=
    fun x => List.dropWhile_cons_of_neg hdot
  obtain ⟨f, hf⟩ : ∃ f, (a ++ (46 :: (b ++ (46 :: c)))).length = f + 5 :=
    ⟨a.length + b.length + c.length - 3, by
      have := hpos hna; have := hpos hnb; have := hpos hnc
      simp
      omega⟩
  unfold digitRuns
  rw [hf, show f + 5 = (f + 4) + 1 by omega,
    digitRunsAux_run (f + 4) _ hna ha (htk _) (hdw _),
    show f + 4 = (f + 3) + 1 by omega,
    digitRunsAux_skip (f + 3) _ (by simpa using hdot),
    show f + 3 = (f + 2) + 1 by omega,
    digitRunsAux_run (f + 2) _ hnb hb (htk _) (hdw _),
    show f + 2 = (f + 1) + 1 by omega,
    digitRunsAux_skip (f + 1) _ (by simpa using hdot),
    show f + 1 = f + 1 from rfl,
    show (c : List Nat) = c ++ [] by simp,
    digitRunsAux_run f [] hnc hc (by rfl) (by rfl), digitRunsAux_nil]
  simp

/-- n_records as decoded: the stored field, except that a stored -1 is
recomputed from the file size.  Both divisions are Python float divisions
with no floor; the result is therefore a rational, not an integer. -/
def nRecordsDecode (stored : Int) (fileSize dataOffset dataSize sampsSum : Nat) : ℚ :=
  if stored = -1 then
    ((fileSize : ℚ) - (dataOffset : ℚ)) / (dataSize : ℚ) / (sampsSum : ℚ)
  else (stored : ℚ)

/-- Everything read_header stores (meas_info, chan_info and the session
calibration).  meas_date is omitted: it is derived from the date fields
and no claim mentions it (the datetime constructor also restricts the
fields to calendar-valid values; the valid-header predicates below stay
inside that domain). -/
structure DecodedHeader where
  file_ver : List Nat
  subject_id : List Nat
  recording_id : List Nat
  day : Nat
  month : Nat
  year : Nat
  hour : Nat
  minute : Nat
  second : Nat
  data_offset : Nat
  subtype : List Nat
  data_size : Nat
  n_records : ℚ
  record_length : Nat
  nchan : Nat
  ch_names : List (List Nat)
  transducers : List (List Nat)
  units : List (List Nat)
  physical_min : List Int
  physical_max : List Int
  digital_min : List Int
  digital_max : List Int
  highpass : ℚ
  highpass_warned : Bool
  lowpass : Option ℚ
  lowpass_warned : Bool
  n_samps : List Nat
  calib : List (FV × FV)
deriving DecidableEq

/-- read_header: sequential fixed-width reads in source order.  Numeric
fields are parsed after strip (int() and float() ignore surrounding
whitespace); the record_length field is coerced to 1 when stored as 0;
an empty subtype tag falls back to the file extension (ext);
integer-valued numeric fields are modelled as integers. -/
def decodeHeader (file : List Nat) (ext : List Nat) : DecodedHeader :=
  let p1 := rd 8 file
  let p2 := rd 80 p1.2
  let p3 := rd 80 p2.2
  let p4 := rd 8 p3.2
  let p5 := rd 8 p4.2
  let p6 := rd 8 p5.2
  let p7 := rd 44 p6.2
  let p8 := rd 8 p7.2
  let p9 := rd 8 p8.2
  let p10 := rd 4 p9.2
  let nchan := parseNatB (stripB p10.1)
  let q1 := rdChunks 16 nchan p10.2
  let q2 := rdChunks 80 nchan q1.2
  let q3 := rdChunks 8 nchan q2.2
  let q4 := rdChunks 8 nchan q3.2
  let q5 := rdChunks 8 nchan q4.2
  let q6 := rdChunks 8 nchan q5.2
  let q7 := rdChunks 8 nchan q6.2
  let q8 := rdChunks 80 nchan q7.2
  let q9 := rdChunks 8 nchan q8.2
  let dateRuns := digitRuns p4.1
  let timeRuns := digitRuns p5.1
  let dataOffset := parseNatB (stripB p6.1)
  let subtypeRaw := (stripB p7.1).take 5
  let subtype := if subtypeRaw.isEmpty then ext else subtypeRaw
  let dataSize := dataSizeOf subtype
  let storedN := parseIntB (stripB p8.1)
  let recLenRaw := parseNatB (stripB p9.1)
  let pmin := q4.1.map (fun l => parseIntB (stripB l))
  let pmax := q5.1.map (fun l => parseIntB (stripB l))
  let dmin := q6.1.map (fun l => parseIntB (stripB l))
  let dmax := q7.1.map (fun l => parseIntB (stripB l))
  let pref := q8.1.map stripB
  let nsamps := q9.1.map (fun l => parseNatB (stripB l))
  let hp := highpassCalc pref
  let lp := lowpassCalc pref
  { file_ver := stripB p1.1
    subject_id := stripB p2.1
    recording_id := stripB p3.1
    day := parseNatB (dateRuns.getD 0 [])
    month := parseNatB (dateRuns.getD 1 [])
    year := parseNatB (dateRuns.getD 2 [])
    hour := parseNatB (timeRuns.getD 0 [])
    minute := parseNatB (timeRuns.getD 1 [])
    second := parseNatB (timeRuns.getD 2 [])
    data_offset := dataOffset
    subtype := subtype
    data_size := dataSize
    n_records := nRecordsDecode storedN file.length dataOffset dataSize nsamps.sum
    record_length := if recLenRaw = 0 then 1 else recLenRaw
    nchan := nchan
    ch_names := q1.1.map stripB
    transducers := q2.1.map stripB
    units := q3.1.map stripB
    physical_min := pmin
    physical_max := pmax
    digital_min := dmin
    digital_max := dmax
    highpass := hp.1
    highpass_warned := hp.2
    lowpass := lp.1
    lowpass_warned := lp.2
    n_samps := nsamps
    calib := calibAll (pmin.map (fun v => (v : ℚ))) (pmax.map (fun v => (v : ℚ)))
      (dmin.map (fun v => (v : ℚ))) (dmax.map (fun v => (v : ℚ))) }

/-- read_block as performed by a reader session holding a decoded header:
cursor to data_offset + block * blocksize, then the per-channel reads,
with the finite projection of the session calibration (chanCalibD below is
the decoded counterpart of chanCalib on the writer side). -/
def chanCalibD (h : DecodedHeader) (i : Nat) : ℚ × ℚ :=
  (resetScaleQ (h.physical_min.getD i 0) (h.physical_max.getD i 0)
      (h.digital_min.getD i 0) (h.digital_max.getD i 0),
   resetOffsetQ (h.physical_min.getD i 0) (h.physical_max.getD i 0)
      (h.digital_min.getD i 0) (h.digital_max.getD i 0))

def readBlockH (file : List Nat) (h : DecodedHeader) (block : Nat) :
    Option (List (List ℚ)) :=
  readBlockM file h.data_offset h.data_size
    ((List.range h.nchan).map
      (fun i => (h.n_samps.getD i 0, (chanCalibD h i).1, (chanCalibD h i).2)))
    block

/-! ### Validity predicates and round-trip support -/

/-- A string value survives the pad/strip cycle: fits its field and is
already stripped. -/
def validStr (s : List Nat) (w : Nat) : Prop := s.length ≤ w ∧ stripB s = s

theorem natBytes_len_le {n k : Nat} (hk : 1 ≤ k) (h : n < 10 ^ k) :
    (natBytes n).length ≤ k := by
  by_cases h0 : n = 0
  · subst h0
    simpa [natBytes, natBytesAux] using hk
  · rw [natBytes_eq, if_neg h0]
    simp only [List.length_reverse, List.length_map]
    by_contra hcon
    push_neg at hcon
    have hle := Nat.base_pow_length_digits_le 10 n (by norm_num) h0
    have h1 : (10 : ℕ) ^ (k + 1) ≤ 10 ^ (Nat.digits 10 n).length :=
      Nat.pow_le_pow_right (by norm_num) hcon
    have h2 : 10 * n < 10 * 10 ^ k := by omega
    rw [← pow_succ' 10 k] at h2
    omega

theorem intBytes_nonneg_len_le {v : Int} {k : Nat} (hk : 1 ≤ k)
    (h0 : 0 ≤ v) (h : v < (10 : Int) ^ k) : (intBytes v).length ≤ k := by
  rw [intBytes, if_neg (by omega)]
  apply natBytes_len_le hk
  have : ((v.toNat : Int)) < ((10 : Int)) ^ k := by rwa [Int.toNat_of_nonneg h0]
  exact_mod_cast this

theorem intBytes_neg_len_le {v : Int} {k : Nat} (hk : 1 ≤ k)
    (h0 : v < 0) (h : -((10 : Int) ^ k) < v) : (intBytes v).length ≤ k + 1 := by
  rw [intBytes, if_pos h0]
  simp only [List.length_cons]
  have : (natBytes v.natAbs).length ≤ k := by
    apply natBytes_len_le hk
    have h1 : (v.natAbs : Int) < (10 : Int) ^ k := by omega
    exact_mod_cast h1
  omega

theorem fmt2_ne_nil (n : Nat) : fmt2 n ≠ [] := by
  unfold fmt2
  split
  · simp
  · exact natBytes_ne_nil n

theorem fmt2_all_digit (n : Nat) : ∀ x ∈ fmt2 n, isDigitB x = true := by
  intro x hx
  unfold fmt2 at hx
  have hd : ∀ y ∈ natBytes n, isDigitB y = true := by
    intro y hy
    have := natBytes_mem_digit n y hy
    simp only [isDigitB]
    simp only [Bool.and_eq_true, decide_eq_true_eq]
    omega
  split at hx
  · rw [List.mem_cons] at hx
    rcases hx with rfl | hx
    · simp [isDigitB]
    · exact hd x hx
  · exact hd x hx

theorem parseNatB_cons_48 (l : List Nat) : parseNatB (48 :: l) = parseNatB l := rfl

theorem parseNatB_fmt2 (n : Nat) : parseNatB (fmt2 n) = n := by
  unfold fmt2
  split
  · rw [parseNatB_cons_48, parseNatB_natBytes]
  · rw [parseNatB_natBytes]

theorem fmt2_length {n : Nat} (h : n ≤ 99) : (fmt2 n).length = 2 := by
  have hle : (natBytes n).length ≤ 2 := natBytes_len_le (by norm_num) (by omega)
  have hne : (natBytes n).length ≠ 0 := by
    simpa [List.length_eq_zero] using natBytes_ne_nil n
  unfold fmt2
  split
  case isTrue h1 => simp [h1]
  case isFalse h1 => omega

theorem dateField_length {a b c : Nat} (ha : a ≤ 99) (hb : b ≤ 99) (hc : c ≤ 99) :
    (dateField a b c).length = 8 := by
  unfold dateField
  simp [fmt2_length ha, fmt2_length hb, fmt2_length hc]

/-- Decoding a date field written by the writer. -/
theorem digitRuns_dateField {a b c : Nat} :
    digitRuns (dateField a b c) = [fmt2 a, fmt2 b, fmt2 c] := by
  unfold dateField
  exact digitRuns_three (fmt2_ne_nil a) (fmt2_all_digit a) (fmt2_ne_nil b)
    (fmt2_all_digit b) (fmt2_ne_nil c) (fmt2_all_digit c)

theorem rdChunks_exact' {w k : Nat} {ls : List (List Nat)} (hk : k = ls.length)
    (h : ∀ l ∈ ls, l.length = w) (r : List Nat) :
    rdChunks w k (ls.flatten ++ r) = (ls, r) := by
  subst hk
  exact rdChunks_exact ls h r

/-- Evaluation of read_header on a file laid out as the writer produces it:
ten fixed-width scalar fields, nine per-channel column blocks, then the
reserved area and the data region (rest), which the header decode does not
inspect beyond the total file length. -/
theorem decodeHeader_eval
    (file ext f1 f2 f3 f4 f5 f6 f7 f8 f9 f10 rest : List Nat)
    (g1 g2 g3 g4 g5 g6 g7 g8 g9 : List (List Nat)) (L : Nat)
    (hfile : file = f1 ++ (f2 ++ (f3 ++ (f4 ++ (f5 ++ (f6 ++ (f7 ++ (f8 ++
      (f9 ++ (f10 ++ (g1.flatten ++ (g2.flatten ++ (g3.flatten ++
      (g4.flatten ++ (g5.flatten ++ (g6.flatten ++ (g7.flatten ++
      (g8.flatten ++ (g9.flatten ++ rest)))))))))))))))))))
    (hL : L = file.length)
    (h1 : f1.length = 8) (h2 : f2.length = 80) (h3 : f3.length = 80)
    (h4 : f4.length = 8) (h5 : f5.length = 8) (h6 : f6.length = 8)
    (h7 : f7.length = 44) (h8 : f8.length = 8) (h9 : f9.length = 8)
    (h10 : f10.length = 4)
    (hk1 : parseNatB (stripB f10) = g1.length)
    (hk2 : parseNatB (stripB f10) = g2.length)
    (hk3 : parseNatB (stripB f10) = g3.length)
    (hk4 : parseNatB (stripB f10) = g4.length)
    (hk5 : parseNatB (stripB f10) = g5.length)
    (hk6 : parseNatB (stripB f10) = g6.length)
    (hk7 : parseNatB (stripB f10) = g7.length)
    (hk8 : parseNatB (stripB f10) = g8.length)
    (hk9 : parseNatB (stripB f10) = g9.length)
    (hg1 : ∀ l ∈ g1, l.length = 16) (hg2 : ∀ l ∈ g2, l.length = 80)
    (hg3 : ∀ l ∈ g3, l.length = 8) (hg4 : ∀ l ∈ g4, l.length = 8)
    (hg5 : ∀ l ∈ g5, l.length = 8) (hg6 : ∀ l ∈ g6, l.length = 8)
    (hg7 : ∀ l ∈ g7, l.length = 8) (hg8 : ∀ l ∈ g8, l.length = 80)
    (hg9 : ∀ l ∈ g9, l.length = 8) :
    decodeHeader file ext =
      { file_ver := stripB f1
        subject_id := stripB f2
        recording_id := stripB f3
        day := parseNatB ((digitRuns f4).getD 0 [])
        month := parseNatB ((digitRuns f4).getD 1 [])
        year := parseNatB ((digitRuns f4).getD 2 [])
        hour := parseNatB ((digitRuns f5).getD 0 [])
        minute := parseNatB ((digitRuns f5).getD 1 [])
        second := parseNatB ((digitRuns f5).getD 2 [])
        data_offset := parseNatB (stripB f6)
        subtype := if ((stripB f7).take 5).isEmpty then ext else (stripB f7).take 5
        data_size := dataSizeOf
          (if ((stripB f7).take 5).isEmpty then ext else (stripB f7).take 5)
        n_records := nRecordsDecode (parseIntB (stripB f8)) L
          (parseNatB (stripB f6))
          (dataSizeOf (if ((stripB f7).take 5).isEmpty then ext else (stripB f7).take 5))
          ((g9.map (fun l => parseNatB (stripB l))).sum)
        record_length :=
          if parseNatB (stripB f9) = 0 then 1 else parseNatB (stripB f9)
        nchan := parseNatB (stripB f10)
        ch_names := g1.map stripB
        transducers := g2.map stripB
        units := g3.map stripB
        physical_min := g4.map (fun l => parseIntB (stripB l))
        physical_max := g5.map (fun l => parseIntB (stripB l))
        digital_min := g6.map (fun l => parseIntB (stripB l))
        digital_max := g7.map (fun l => parseIntB (stripB l))
        highpass := (highpassCalc (g8.map stripB)).1
        highpass_warned := (highpassCalc (g8.map stripB)).2
        lowpass := (lowpassCalc (g8.map stripB)).1
        lowpass_warned := (lowpassCalc (g8.map stripB)).2
        n_samps := g9.map (fun l => parseNatB (stripB l))
        calib := calibAll
          ((g4.map (fun l => parseIntB (stripB l))).map (fun v => (v : ℚ)))
          ((g5.map (fun l => parseIntB (stripB l))).map (fun v => (v : ℚ)))
          ((g6.map (fun l => parseIntB (stripB l))).map (fun v => (v : ℚ)))
          ((g7.map (fun l => parseIntB (stripB l))).map (fun v => (v : ℚ))) } := by
  subst hL
  subst hfile
  unfold decodeHeader
  simp only [rd_exact h1, rd_exact h2, rd_exact h3, rd_exact h4, rd_exact h5,
    rd_exact h6, rd_exact h7, rd_exact h8, rd_exact h9, rd_exact h10,
    rdChunks_exact' hk1 hg1, rdChunks_exact' hk2 hg2, rdChunks_exact' hk3 hg3,
    rdChunks_exact' hk4 hg4, rdChunks_exact' hk5 hg5, rdChunks_exact' hk6 hg6,
    rdChunks_exact' hk7 hg7, rdChunks_exact' hk8 hg8, rdChunks_exact' hk9 hg9]

/-! ### write_header in-place mutation of the caller header (lines 194-298)

write_header receives the caller dictionaries by reference and mutates
them: missing subject_id / recording_id / subtype and short or missing
ch_names / transducers / units are replaced by defaults, the list-valued
chan_info entries are re-bound to numpy arrays (a representation change not
visible at this level of modelling), and data_size / data_offset are
inserted.  The mutated dictionaries are what the caller observes after the
call; the functions below compute that post-state. -/

structure MeasInfoIn where
  subject_id : Option (List Nat)
  recording_id : Option (List Nat)
  subtype : Option (List Nat)
  data_size : Option Nat
  data_offset : Option Nat
  day : Nat
  month : Nat
  year : Nat
  hour : Nat
  minute : Nat
  second : Nat
  record_length : Nat
  nchan : Nat
deriving DecidableEq

structure ChanInfoIn where
  ch_names : Option (List (List Nat))
  transducers : Option (List (List Nat))
  units : Option (List (List Nat))
  physical_min : List Int
  physical_max : List Int
  digital_min : List Int
  digital_max : List Int
  n_samps : List Nat
deriving DecidableEq

/-- meas_info after write_header: defaults inserted for missing keys,
data_size derived from the subtype, data_offset set to the final file
position of the header (256 + 256 * nchan bytes). -/
def fillMeas (m : MeasInfoIn) : MeasInfoIn :=
  let st := m.subtype.getD (bytesOf "edf")
  { m with
    subject_id := some (m.subject_id.getD [])
    recording_id := some (m.recording_id.getD [])
    subtype := some st
    data_size := some (dataSizeOf st)
    data_offset := some (256 + 256 * m.nchan) }

/-- A chan_info entry after the missing-or-short default rule
(not in chan_info, or len < nchan). -/
def fillList (v : Option (List (List Nat))) (nchan : Nat)
    (dflt : List (List Nat)) : List (List Nat) :=
  match v with
  | some ls => if ls.length < nchan then dflt else ls
  | none => dflt

/-- chan_info after write_header. -/
def fillChan (c : ChanInfoIn) (nchan : Nat) : ChanInfoIn :=
  { c with
    ch_names := some (fillList c.ch_names nchan ((List.range nchan).map natBytes))
    transducers := some (fillList c.transducers nchan (List.replicate nchan []))
    units := some (fillList c.units nchan (List.replicate nchan [])) }

/-! ### Writer-side layout lemmas -/

theorem flatten_replicate_replicate (n w x : Nat) :
    (List.replicate n (List.replicate w x)).flatten = List.replicate (n * w) x := by
  induction n with
  | zero => simp
  | succ k ih =>
    rw [List.replicate_succ, List.flatten_cons, ih,
      List.append_replicate_replicate, Nat.succ_mul, Nat.add_comm]

theorem map_getD_range {α : Type} (l : List α) (d : α) :
    (List.range l.length).map (fun i => l.getD i d) = l := by
  induction l with
  | nil => rfl
  | cons a l ih =>
    rw [List.length_cons, List.range_succ_eq_map, List.map_cons, List.map_map]
    have h1 : (a :: l).getD 0 d = a := rfl
    have h2 : ((fun i => (a :: l).getD i d) ∘ Nat.succ) = fun i => l.getD i d := by
      funext i
      rfl
    rw [h1, h2, ih]

/-- The validity conditions under which the header round trip is exact:
fields fit their widths and are already stripped, the date is in the
domain the reader datetime reconstruction accepts, digital and physical
ranges are strictly increasing (so the calibration is finite positive and
the reset loop is inert), and the subtype is a two-byte-sample tag matching
the file extension the reader falls back to (the writer leaves the subtype
area blank). -/
def validMeas (m : MeasInfo) : Prop :=
  validStr m.subject_id 80 ∧ validStr m.recording_id 80 ∧
  1 ≤ m.day ∧ m.day ≤ 28 ∧ 1 ≤ m.month ∧ m.month ≤ 12 ∧ m.year ≤ 99 ∧
  m.hour ≤ 23 ∧ m.minute ≤ 59 ∧ m.second ≤ 59 ∧
  1 ≤ m.record_length ∧ m.record_length < 10 ^ 8 ∧
  1 ≤ m.nchan ∧ m.nchan < 10 ^ 4 ∧
  m.subtype ≠ bytesOf "24BIT" ∧ m.subtype ≠ bytesOf "bdf"

def validChan (c : ChanInfo) (nchan : Nat) : Prop :=
  c.ch_names.length = nchan ∧ (∀ s ∈ c.ch_names, validStr s 16) ∧
  c.transducers.length = nchan ∧ (∀ s ∈ c.transducers, validStr s 80) ∧
  c.units.length = nchan ∧ (∀ s ∈ c.units, validStr s 8) ∧
  c.physical_min.length = nchan ∧ (∀ v ∈ c.physical_min, (intBytes v).length ≤ 8) ∧
  c.physical_max.length = nchan ∧ (∀ v ∈ c.physical_max, (intBytes v).length ≤ 8) ∧
  c.digital_min.length = nchan ∧ (∀ v ∈ c.digital_min, (intBytes v).length ≤ 8) ∧
  c.digital_max.length = nchan ∧ (∀ v ∈ c.digital_max, (intBytes v).length ≤ 8) ∧
  c.n_samps.length = nchan ∧ (∀ n ∈ c.n_samps, 1 ≤ n ∧ n < 10 ^ 8) ∧
  (∀ i, i < nchan → c.digital_min.getD i 0 < c.digital_max.getD i 0 ∧
    c.physical_min.getD i 0 < c.physical_max.getD i 0)

/-- Blocks passed to write_block: one array per channel of the declared
length, with every sample quantizing into the int16 range. -/
def validBlocks (c : ChanInfo) (nchan : Nat) (blocks : List (List (List ℚ))) : Prop :=
  ∀ blk ∈ blocks, blk.length = nchan ∧
    ∀ i, i < nchan →
      (blk.getD i []).length = c.n_samps.getD i 0 ∧
      ∀ x ∈ blk.getD i [],
        -32768 ≤ truncQ ((x - (chanCalib c i).2) / (chanCalib c i).1) ∧
        truncQ ((x - (chanCalib c i).2) / (chanCalib c i).1) ≤ 32767

theorem dataSizeOf_valid {m : MeasInfo} (hvm : validMeas m) :
    dataSizeOf m.subtype = 2 := by
  obtain ⟨-, -, -, -, -, -, -, -, -, -, -, -, -, -, h24, hbdf⟩ := hvm
  rw [dataSizeOf, if_neg]
  rintro (h | h)
  · exact h24 h
  · exact hbdf h

/-- Every chunk of a padded column has exactly the field width. -/
theorem map_padtrim_uniform {α : Type} {ls : List α} {enc : α → List Nat} {w : Nat}
    (h : ∀ v ∈ ls, (enc v).length ≤ w) :
    ∀ l ∈ ls.map (fun v => padtrim (enc v) w), l.length = w := by
  intro l hl
  simp only [List.mem_map] at hl
  obtain ⟨v, hv, rfl⟩ := hl
  exact padtrim_length (h v hv)

theorem flatten_padtrim_length {α : Type} {ls : List α} {enc : α → List Nat} {w : Nat}
    (h : ∀ v ∈ ls, (enc v).length ≤ w) :
    ((ls.map (fun v => padtrim (enc v) w)).flatten).length = ls.length * w := by
  rw [flatten_length_uniform (map_padtrim_uniform h)]
  simp

theorem encodeChan_length {c : ChanInfo} {nchan : Nat}
    (hvc : validChan c nchan) : (encodeChan c nchan).length = nchan * 256 := by
  obtain ⟨l1, s1, l2, s2, l3, s3, l4, s4, l5, s5, l6, s6, l7, s7, l8, s8, -⟩ := hvc
  have e1 := @flatten_padtrim_length _ _ (fun s => s) _ (fun s hs => (s1 s hs).1)
  have e2 := @flatten_padtrim_length _ _ (fun s => s) _ (fun s hs => (s2 s hs).1)
  have e3 := @flatten_padtrim_length _ _ (fun s => s) _ (fun s hs => (s3 s hs).1)
  have e4 := @flatten_padtrim_length _ _ intBytes _ s4
  have e5 := @flatten_padtrim_length _ _ intBytes _ s5
  have e6 := @flatten_padtrim_length _ _ intBytes _ s6
  have e7 := @flatten_padtrim_length _ _ intBytes _ s7
  have e9 := @flatten_padtrim_length _ _ natBytes _
    (fun n hn => natBytes_len_le (by norm_num) (s8 n hn).2)
  unfold encodeChan
  simp only [List.length_append, e1, e2, e3, e4, e5, e6, e7, e9,
    List.length_replicate, l1, l2, l3, l4, l5, l6, l7, l8]
  ring

theorem take_append_plus {α : Type} (l r : List α) (k : Nat) :
    (l ++ r).take (l.length + k) = l ++ r.take k := by
  rw [List.take_append_eq_append_take, List.take_of_length_le (by omega),
    Nat.add_sub_cancel_left]

theorem drop_append_plus {α : Type} (l r : List α) (k : Nat) :
    (l ++ r).drop (l.length + k) = r.drop k := by
  rw [List.drop_append_eq_append_drop, List.drop_of_length_le (by omega),
    Nat.add_sub_cancel_left, List.nil_append]

theorem padtrim_exact {l : List Nat} {n : Nat} (h : l.length = n) :
    padtrim l n = l := by
  rw [padtrim, if_pos (by omega), h, Nat.sub_self]
  simp

/-- Each write_block call appends exactly blocksize = 2 * sum(n_samps)
bytes when the block is well-formed. -/
theorem writeBlockBytes_length {c : ChanInfo} {nchan : Nat}
    {blk : List (List ℚ)} (hlen : c.n_samps.length = nchan)
    (hb : ∀ i, i < nchan → (blk.getD i []).length = c.n_samps.getD i 0) :
    (writeBlockBytes nchan c blk).length = 2 * c.n_samps.sum := by
  unfold writeBlockBytes
  rw [encBlock_length, List.map_map]
  have h1 : ((fun (t : List ℚ × ℚ × ℚ) => t.1.length) ∘
      fun i => (blk.getD i [], (chanCalib c i).2, (chanCalib c i).1))
      = fun i => (blk.getD i []).length := rfl
  rw [h1]
  have h2 : (List.range nchan).map (fun i => (blk.getD i []).length)
      = (List.range nchan).map (fun i => c.n_samps.getD i 0) := by
    apply List.map_congr_left
    intro i hi
    exact hb i (List.mem_range.mp hi)
  rw [h2, ← hlen, map_getD_range]

/-- The bytes of the finalized file, laid out as header fields followed by
the data region: close only replaces the record-count field. -/
theorem finalFile_layout {m : MeasInfo} {c : ChanInfo}
    {blocks : List (List (List ℚ))} (hvm : validMeas m)
    (hvc : validChan c m.nchan) (hvb : validBlocks c m.nchan blocks) :
    finalFile m c blocks
      = encodeMeas m (padtrim (natBytes blocks.length) 8)
        ++ (encodeChan c m.nchan
          ++ (blocks.map (writeBlockBytes m.nchan c)).flatten) := by
  obtain ⟨hs1, hs2, hd1, hd2, hm1, hm2, hy, hh, hmin, hsec, hrl1, hrl2,
    hn1, hn2, h24, hbdf⟩ := hvm
  have hf1 : (padtrim (natBytes 0) 8).length = 8 := padtrim_length (by
    simp [natBytes, natBytesAux])
  have hf2 : (padtrim m.subject_id 80).length = 80 := padtrim_length hs1.1
  have hf3 : (padtrim m.recording_id 80).length = 80 := padtrim_length hs2.1
  have hf4 : (padtrim (dateField m.day m.month m.year) 8).length = 8 :=
    padtrim_length (by rw [dateField_length (by omega) (by omega) (by omega)])
  have hf5 : (padtrim (dateField m.hour m.minute m.second) 8).length = 8 :=
    padtrim_length (by rw [dateField_length (by omega) (by omega) (by omega)])
  have hf6 : (padtrim (natBytes (256 + 256 * m.nchan)) 8).length = 8 :=
    padtrim_length (natBytes_len_le (by norm_num) (by omega))
  have hf7 : (List.replicate 44 32 : List Nat).length = 44 := by simp
  have hnf : (padtrim (intBytes (-1)) 8).length = 8 := padtrim_length (by
    simp [intBytes, natBytes, natBytesAux])
  have hf9 : (padtrim (natBytes m.record_length) 8).length = 8 :=
    padtrim_length (natBytes_len_le (by norm_num) (by omega))
  have hf10 : (padtrim (natBytes m.nchan) 4).length = 4 :=
    padtrim_length (natBytes_len_le (by norm_num) (by omega))
  have hch : (encodeChan c m.nchan).length = m.nchan * 256 := encodeChan_length hvc
  obtain ⟨-, -, -, -, -, -, -, -, -, -, -, -, -, -, hns, -, -⟩ := hvc
  have hbl : ∀ b ∈ blocks.map (writeBlockBytes m.nchan c),
      b.length = 2 * c.n_samps.sum := by
    intro b hbm
    simp only [List.mem_map] at hbm
    obtain ⟨blk, hblk, rfl⟩ := hbm
    exact writeBlockBytes_length hns (fun i hi => ((hvb blk hblk).2 i hi).1)
  have hdata : ((blocks.map (writeBlockBytes m.nchan c)).flatten).length
      = blocks.length * (2 * c.n_samps.sum) := by
    rw [flatten_length_uniform hbl]
    simp
  unfold finalFile writerFile encodeHeader closeCopy
  rw [dataSizeOf_valid ⟨hs1, hs2, hd1, hd2, hm1, hm2, hy, hh, hmin, hsec,
    hrl1, hrl2, hn1, hn2, h24, hbdf⟩]
  unfold encodeMeas
  simp only [List.append_assoc]
  set f1 := padtrim (natBytes 0) 8 with hf1e
  set f2 := padtrim m.subject_id 80 with hf2e
  set f3 := padtrim m.recording_id 80 with hf3e
  set f4 := padtrim (dateField m.day m.month m.year) 8 with hf4e
  set f5 := padtrim (dateField m.hour m.minute m.second) 8 with hf5e
  set f6 := padtrim (natBytes (256 + 256 * m.nchan)) 8 with hf6e
  set f7 := (List.replicate 44 32 : List Nat) with hf7e
  set nf := padtrim (intBytes (-1)) 8 with hnfe
  set f9 := padtrim (natBytes m.record_length) 8 with hf9e
  set f10 := padtrim (natBytes m.nchan) 4 with hf10e
  set padN := padtrim (natBytes blocks.length) 8 with hpadNe
  set chanB := encodeChan c m.nchan with hchanBe
  set dataB := (blocks.map (writeBlockBytes m.nchan c)).flatten with hdataB
  have seg1 : (f1 ++ (f2 ++ (f3 ++ (f4 ++ (f5 ++ (f6 ++ (f7 ++ (nf ++ (f9 ++
      (f10 ++ (chanB ++ dataB))))))))))).take 236
      = f1 ++ (f2 ++ (f3 ++ (f4 ++ (f5 ++ (f6 ++ f7))))) := by
    rw [show (236 : Nat) = f1.length + 228 by omega, take_append_plus,
      show (228 : Nat) = f2.length + 148 by omega, take_append_plus,
      show (148 : Nat) = f3.length + 68 by omega, take_append_plus,
      show (68 : Nat) = f4.length + 60 by omega, take_append_plus,
      show (60 : Nat) = f5.length + 52 by omega, take_append_plus,
      show (52 : Nat) = f6.length + 44 by omega, take_append_plus,
      show (44 : Nat) = f7.length + 0 by omega, take_append_plus,
      List.take_zero, List.append_nil]
  have seg2 : ((f1 ++ (f2 ++ (f3 ++ (f4 ++ (f5 ++ (f6 ++ (f7 ++ (nf ++ (f9 ++
      (f10 ++ (chanB ++ dataB))))))))))).drop 244).take
        (256 + 256 * m.nchan - 236 - 8)
      = f9 ++ (f10 ++ chanB) := by
    rw [show 256 + 256 * m.nchan - 236 - 8 = 12 + 256 * m.nchan by omega,
      show (244 : Nat) = f1.length + 236 by omega, drop_append_plus,
      show (236 : Nat) = f2.length + 156 by omega, drop_append_plus,
      show (156 : Nat) = f3.length + 76 by omega, drop_append_plus,
      show (76 : Nat) = f4.length + 68 by omega, drop_append_plus,
      show (68 : Nat) = f5.length + 60 by omega, drop_append_plus,
      show (60 : Nat) = f6.length + 52 by omega, drop_append_plus,
      show (52 : Nat) = f7.length + 8 by omega, drop_append_plus,
      show (8 : Nat) = nf.length + 0 by omega, drop_append_plus,
      List.drop_zero,
      show 12 + 256 * m.nchan = f9.length + (4 + 256 * m.nchan) by omega,
      take_append_plus,
      show 4 + 256 * m.nchan = f10.length + 256 * m.nchan by omega,
      take_append_plus,
      show 256 * m.nchan = chanB.length + 0 by omega,
      take_append_plus, List.take_zero, List.append_nil]
  have seg3 : ((f1 ++ (f2 ++ (f3 ++ (f4 ++ (f5 ++ (f6 ++ (f7 ++ (nf ++ (f9 ++
      (f10 ++ (chanB ++ dataB))))))))))).drop (256 + 256 * m.nchan)).take
        (blocks.length * (c.n_samps.sum * 2))
      = dataB := by
    rw [show (256 + 256 * m.nchan : Nat) = f1.length + (248 + 256 * m.nchan) by omega,
      drop_append_plus,
      show (248 + 256 * m.nchan : Nat) = f2.length + (168 + 256 * m.nchan) by omega,
      drop_append_plus,
      show (168 + 256 * m.nchan : Nat) = f3.length + (88 + 256 * m.nchan) by omega,
      drop_append_plus,
      show (88 + 256 * m.nchan : Nat) = f4.length + (80 + 256 * m.nchan) by omega,
      drop_append_plus,
      show (80 + 256 * m.nchan : Nat) = f5.length + (72 + 256 * m.nchan) by omega,
      drop_append_plus,
      show (72 + 256 * m.nchan : Nat) = f6.length + (64 + 256 * m.nchan) by omega,
      drop_append_plus,
      show (64 + 256 * m.nchan : Nat) = f7.length + (20 + 256 * m.nchan) by omega,
      drop_append_plus,
      show (20 + 256 * m.nchan : Nat) = nf.length + (12 + 256 * m.nchan) by omega,
      drop_append_plus,
      show (12 + 256 * m.nchan : Nat) = f9.length + (4 + 256 * m.nchan) by omega,
      drop_append_plus,
      show (4 + 256 * m.nchan : Nat) = f10.length + 256 * m.nchan by omega,
      drop_append_plus,
      show (256 * m.nchan : Nat) = chanB.length + 0 by omega,
      drop_append_plus, List.drop_zero,
      show blocks.length * (c.n_samps.sum * 2) = dataB.length by rw [hdata]; ring,
      List.take_length]
  rw [seg1, seg2, seg3]
  simp only [List.append_assoc]

theorem parseIntB_natBytes (n : Nat) : parseIntB (natBytes n) = n := by
  have h : intBytes (n : Int) = natBytes n := by
    rw [intBytes, if_neg (by omega)]
    norm_num
  rw [← h, parseIntB_intBytes]

theorem stripB_replicate_space (k : Nat) :
    stripB (List.replicate k 32) = [] := by
  have := stripB_append_spaces [] k
  simpa using this

/-- Stripping the padded column of already-stripped strings gives them back. -/
theorem map_strip_padtrim {ls : List (List Nat)} {w : Nat}
    (h : ∀ s ∈ ls, validStr s w) :
    (ls.map (fun s => padtrim s w)).map stripB = ls := by
  rw [List.map_map]
  have : ∀ s ∈ ls, (stripB ∘ fun s => padtrim s w) s = s := by
    intro s hs
    exact stripB_padtrim (h s hs).1 (h s hs).2
  rw [List.map_congr_left this]
  simp

/-- Parsing the padded column of encoded integers gives them back. -/
theorem map_parse_padtrim_int {ls : List Int} {w : Nat}
    (h : ∀ v ∈ ls, (intBytes v).length ≤ w) :
    ((ls.map (fun v => padtrim (intBytes v) w)).map
      (fun l => parseIntB (stripB l))) = ls := by
  rw [List.map_map]
  have : ∀ v ∈ ls, ((fun l => parseIntB (stripB l)) ∘
      fun v => padtrim (intBytes v) w) v = v := by
    intro v hv
    exact parse_field_int v w (h v hv)
  rw [List.map_congr_left this]
  simp

theorem map_parse_padtrim_nat {ls : List Nat} {w : Nat}
    (h : ∀ v ∈ ls, (natBytes v).length ≤ w) :
    ((ls.map (fun v => padtrim (natBytes v) w)).map
      (fun l => parseNatB (stripB l))) = ls := by
  rw [List.map_map]
  have : ∀ v ∈ ls, ((fun l => parseNatB (stripB l)) ∘
      fun v => padtrim (natBytes v) w) v = v := by
    intro v hv
    exact parse_field_nat v w (h v hv)
  rw [List.map_congr_left this]
  simp

theorem findTok_nil (t1 t2 : Nat) : findTok t1 t2 [] = [] := rfl

/-- The writer leaves prefiltering blank, so the decoder finds no tokens
and falls to the defaults (highpass 0.0, lowpass None, no warning). -/
theorem prefilter_blank (nchan : Nat) :
    highpassCalc (List.replicate nchan []) = (0, false)
      ∧ lowpassCalc (List.replicate nchan []) = (none, false) := by
  have hflat : ∀ t1 t2 : Nat,
      (((List.replicate nchan ([] : List Nat)).dropLast).map
        (findTok t1 t2)).flatten = [] := by
    intro t1 t2
    have hmem : ∀ x ∈ (List.replicate nchan ([] : List Nat)).dropLast,
        findTok t1 t2 x = [] := by
      intro x hx
      have hx' : x ∈ List.replicate nchan ([] : List Nat) :=
        (List.dropLast_sublist _).subset hx
      rw [List.eq_of_mem_replicate hx']
      exact findTok_nil t1 t2
    rw [List.map_congr_left hmem]
    simp
  constructor
  · unfold highpassCalc hpTokens
    rw [hflat 72 80]
    rfl
  · unfold lowpassCalc lpTokens
    rw [hflat 76 80]
    rfl

theorem getD_map_range {α : Type} {n i : Nat} (f : Nat → α) (d : α) (h : i < n) :
    ((List.range n).map f).getD i d = f i := by
  rw [List.getD_eq_getElem _ _ (by simpa using h)]
  simp

theorem getD_map_lt {α β : Type} {l : List α} {j : Nat} (f : α → β)
    (d : β) (d' : α) (h : j < l.length) :
    (l.map f).getD j d = f (l.getD j d') := by
  rw [List.getD_eq_getElem _ _ (by simpa using h), List.getD_eq_getElem _ _ h]
  simp

/-- Reopening the finalized writer output decodes the original header: every
persisted field comes back unchanged, n_records is the number of blocks
written, data_offset and data_size take their derived values, and the
filter settings fall to the defaults because the writer leaves the
prefiltering columns blank. -/
theorem decode_final {m : MeasInfo} {c : ChanInfo}
    {blocks : List (List (List ℚ))} (hvm : validMeas m)
    (hvc : validChan c m.nchan) (hvb : validBlocks c m.nchan blocks)
    (hN : blocks.length < 10 ^ 8) :
    decodeHeader (finalFile m c blocks) m.subtype =
      { file_ver := natBytes 0
        subject_id := m.subject_id
        recording_id := m.recording_id
        day := m.day
        month := m.month
        year := m.year
        hour := m.hour
        minute := m.minute
        second := m.second
        data_offset := 256 + 256 * m.nchan
        subtype := m.subtype
        data_size := 2
        n_records := (blocks.length : ℚ)
        record_length := m.record_length
        nchan := m.nchan
        ch_names := c.ch_names
        transducers := c.transducers
        units := c.units
        physical_min := c.physical_min
        physical_max := c.physical_max
        digital_min := c.digital_min
        digital_max := c.digital_max
        highpass := 0
        highpass_warned := false
        lowpass := none
        lowpass_warned := false
        n_samps := c.n_samps
        calib := calibAll (c.physical_min.map (fun v => (v : ℚ)))
          (c.physical_max.map (fun v => (v : ℚ)))
          (c.digital_min.map (fun v => (v : ℚ)))
          (c.digital_max.map (fun v => (v : ℚ))) } := by
  obtain ⟨hs1, hs2, hd1, hd2, hm1, hm2, hy, hh, hmin, hsec, hrl1, hrl2,
    hn1, hn2, h24, hbdf⟩ := hvm
  obtain ⟨l1, s1, l2, s2, l3, s3, l4, s4, l5, s5, l6, s6, l7, s7, l8, s8, hcal⟩ := hvc
  have hd8 : (dateField m.day m.month m.year).length = 8 :=
    dateField_length (by omega) (by omega) (by omega)
  have ht8 : (dateField m.hour m.minute m.second).length = 8 :=
    dateField_length (by omega) (by omega) (by omega)
  have hz8 : (natBytes 0).length ≤ 8 := by simp [natBytes, natBytesAux]
  have hdo8 : (natBytes (256 + 256 * m.nchan)).length ≤ 8 :=
    natBytes_len_le (by norm_num) (by omega)
  have hN8 : (natBytes blocks.length).length ≤ 8 :=
    natBytes_len_le (by norm_num) (by omega)
  have hrl8 : (natBytes m.record_length).length ≤ 8 :=
    natBytes_len_le (by norm_num) (by omega)
  have hnc4 : (natBytes m.nchan).length ≤ 4 :=
    natBytes_len_le (by norm_num) (by omega)
  have hpn : parseNatB (stripB (padtrim (natBytes m.nchan) 4)) = m.nchan :=
    parse_field_nat _ _ hnc4
  have hfile : finalFile m c blocks
      = padtrim (natBytes 0) 8 ++ (padtrim m.subject_id 80 ++ (padtrim m.recording_id 80 ++
        (padtrim (dateField m.day m.month m.year) 8 ++ (padtrim (dateField m.hour m.minute m.second) 8 ++
        (padtrim (natBytes (256 + 256 * m.nchan)) 8 ++ (List.replicate 44 32 ++
        (padtrim (natBytes blocks.length) 8 ++ (padtrim (natBytes m.record_length) 8 ++
        (padtrim (natBytes m.nchan) 4 ++
        ((c.ch_names.map (fun s => padtrim s 16)).flatten ++
        ((c.transducers.map (fun s => padtrim s 80)).flatten ++
        ((c.units.map (fun s => padtrim s 8)).flatten ++
        ((c.physical_min.map (fun v => padtrim (intBytes v) 8)).flatten ++
        ((c.physical_max.map (fun v => padtrim (intBytes v) 8)).flatten ++
        ((c.digital_min.map (fun v => padtrim (intBytes v) 8)).flatten ++
        ((c.digital_max.map (fun v => padtrim (intBytes v) 8)).flatten ++
        ((List.replicate m.nchan (List.replicate 80 32)).flatten ++
        ((c.n_samps.map (fun v => padtrim (natBytes v) 8)).flatten ++
        (List.replicate (m.nchan * 32) 32 ++
          (blocks.map (writeBlockBytes m.nchan c)).flatten)))))))))))))))))))
      := by
    rw [finalFile_layout ⟨hs1, hs2, hd1, hd2, hm1, hm2, hy, hh, hmin, hsec,
        hrl1, hrl2, hn1, hn2, h24, hbdf⟩
      ⟨l1, s1, l2, s2, l3, s3, l4, s4, l5, s5, l6, s6, l7, s7, l8, s8, hcal⟩ hvb]
    unfold encodeMeas encodeChan
    rw [flatten_replicate_replicate]
    simp only [List.append_assoc]
  rw [decodeHeader_eval _ _ _ _ _ _ _ _ _ _ _ _ _ _ _ _ _ _ _ _ _ _ _ hfile rfl
    (padtrim_length hz8) (padtrim_length hs1.1) (padtrim_length hs2.1)
    (padtrim_length (le_of_eq hd8)) (padtrim_length (le_of_eq ht8))
    (padtrim_length hdo8) (by simp) (padtrim_length hN8)
    (padtrim_length hrl8) (padtrim_length hnc4)
    (by rw [hpn, List.length_map, l1]) (by rw [hpn, List.length_map, l2])
    (by rw [hpn, List.length_map, l3]) (by rw [hpn, List.length_map, l4])
    (by rw [hpn, List.length_map, l5]) (by rw [hpn, List.length_map, l6])
    (by rw [hpn, List.length_map, l7]) (by rw [hpn, List.length_replicate])
    (by rw [hpn, List.length_map, l8])
    (map_padtrim_uniform (fun s hs => (s1 s hs).1))
    (map_padtrim_uniform (fun s hs => (s2 s hs).1))
    (map_padtrim_uniform (fun s hs => (s3 s hs).1))
    (map_padtrim_uniform s4) (map_padtrim_uniform s5)
    (map_padtrim_uniform s6) (map_padtrim_uniform s7)
    (fun l hl => by rw [List.eq_of_mem_replicate hl, List.length_replicate])
    (map_padtrim_uniform (fun n hn =>
      natBytes_len_le (by norm_num) (s8 n hn).2))]
  have hstrip0 : stripB (padtrim (natBytes 0) 8) = natBytes 0 :=
    stripB_padtrim hz8 (stripB_natBytes 0)
  have hdate : padtrim (dateField m.day m.month m.year) 8
      = dateField m.day m.month m.year := padtrim_exact hd8
  have htime : padtrim (dateField m.hour m.minute m.second) 8
      = dateField m.hour m.minute m.second := padtrim_exact ht8
  have hsubt : (if ((stripB (List.replicate 44 32 : List Nat)).take 5).isEmpty
      then m.subtype
      else (stripB (List.replicate 44 32 : List Nat)).take 5) = m.subtype := by
    rw [stripB_replicate_space]
    rfl
  have hpmin := map_parse_padtrim_int s4
  have hpmax := map_parse_padtrim_int s5
  have hdmin := map_parse_padtrim_int s6
  have hdmax := map_parse_padtrim_int s7
  have hnsamp := map_parse_padtrim_nat (fun n hn =>
    natBytes_len_le (by norm_num) (s8 n hn).2)
  have hpref : (List.replicate m.nchan (List.replicate 80 32)).map stripB
      = List.replicate m.nchan ([] : List Nat) := by
    rw [List.map_replicate, stripB_replicate_space]
  have hstoredN : parseIntB (stripB (padtrim (natBytes blocks.length) 8))
      = (blocks.length : Int) := by
    rw [stripB_padtrim hN8 (stripB_natBytes _), parseIntB_natBytes]
  simp only [DecodedHeader.mk.injEq]
  refine ⟨hstrip0, stripB_padtrim hs1.1 hs1.2, stripB_padtrim hs2.1 hs2.2,
    ?_, ?_, ?_, ?_, ?_, ?_, parse_field_nat _ _ hdo8, hsubt, ?_, ?_, ?_, hpn,
    map_strip_padtrim s1, map_strip_padtrim s2, map_strip_padtrim s3,
    hpmin, hpmax, hdmin, hdmax, ?_, ?_, ?_, ?_, hnsamp, ?_⟩
  · rw [hdate, digitRuns_dateField]
    exact parseNatB_fmt2 m.day
  · rw [hdate, digitRuns_dateField]
    exact parseNatB_fmt2 m.month
  · rw [hdate, digitRuns_dateField]
    exact parseNatB_fmt2 m.year
  · rw [htime, digitRuns_dateField]
    exact parseNatB_fmt2 m.hour
  · rw [htime, digitRuns_dateField]
    exact parseNatB_fmt2 m.minute
  · rw [htime, digitRuns_dateField]
    exact parseNatB_fmt2 m.second
  · rw [hsubt]
    exact dataSizeOf_valid ⟨hs1, hs2, hd1, hd2, hm1, hm2, hy, hh, hmin, hsec,
      hrl1, hrl2, hn1, hn2, h24, hbdf⟩
  · rw [hstoredN, nRecordsDecode, if_neg (by omega)]
    push_cast
    ring
  · rw [stripB_padtrim hrl8 (stripB_natBytes _), parseNatB_natBytes,
      if_neg (by omega)]
  · rw [hpref, (prefilter_blank m.nchan).1]
  · rw [hpref, (prefilter_blank m.nchan).1]
  · rw [hpref, (prefilter_blank m.nchan).2]
  · rw [hpref, (prefilter_blank m.nchan).2]
  · rw [hpmin, hpmax, hdmin, hdmax]

theorem encodeMeas_length {m : MeasInfo} {nf : List Nat}
    (hvm : validMeas m) (hnf : nf.length = 8) :
    (encodeMeas m nf).length = 256 := by
  obtain ⟨hs1, hs2, hd1, hd2, hm1, hm2, hy, hh, hmin, hsec, hrl1, hrl2,
    hn1, hn2, -, -⟩ := hvm
  unfold encodeMeas
  simp only [List.length_append, List.length_replicate, hnf,
    padtrim_length (show (natBytes 0).length ≤ 8 by simp [natBytes, natBytesAux]),
    padtrim_length hs1.1, padtrim_length hs2.1,
    padtrim_length (le_of_eq (dateField_length (show m.day ≤ 99 by omega)
      (show m.month ≤ 99 by omega) (show m.year ≤ 99 by omega))),
    padtrim_length (le_of_eq (dateField_length (show m.hour ≤ 99 by omega)
      (show m.minute ≤ 99 by omega) (show m.second ≤ 99 by omega))),
    padtrim_length (natBytes_len_le (show 1 ≤ 8 by norm_num)
      (show 256 + 256 * m.nchan < 10 ^ 8 by omega)),
    padtrim_length (natBytes_len_le (show 1 ≤ 8 by norm_num)
      (show m.record_length < 10 ^ 8 by omega)),
    padtrim_length (natBytes_len_le (show 1 ≤ 4 by norm_num)
      (show m.nchan < 10 ^ 4 by omega))]

/-- Reading back block k of the finalized file yields exactly the
per-channel round-tripped physical samples. -/
theorem readBlock_final {m : MeasInfo} {c : ChanInfo}
    {blocks : List (List (List ℚ))} (hvm : validMeas m)
    (hvc : validChan c m.nchan) (hvb : validBlocks c m.nchan blocks)
    (hN : blocks.length < 10 ^ 8) {k : Nat} (hk : k < blocks.length) :
    readBlockH (finalFile m c blocks)
        (decodeHeader (finalFile m c blocks) m.subtype) k
      = some ((List.range m.nchan).map (fun i =>
          ((blocks.getD k []).getD i []).map (fun x =>
            readPhysical (writeDigital x (chanCalib c i).2 (chanCalib c i).1)
              (chanCalib c i).1 (chanCalib c i).2))) := by
  have hns : c.n_samps.length = m.nchan := by
    obtain ⟨-, -, -, -, -, -, -, -, -, -, -, -, -, -, hns, -, -⟩ := hvc
    exact hns
  rw [decode_final hvm hvc hvb hN]
  unfold readBlockH readBlockM
  simp only [chanCalibD, chanCalib]
  -- the per-channel sample counts in the decoded triple list are n_samps
  have htrip : ((List.range m.nchan).map (fun i =>
      (c.n_samps.getD i 0,
        resetScaleQ (c.physical_min.getD i 0) (c.physical_max.getD i 0)
          (c.digital_min.getD i 0) (c.digital_max.getD i 0),
        resetOffsetQ (c.physical_min.getD i 0) (c.physical_max.getD i 0)
          (c.digital_min.getD i 0) (c.digital_max.getD i 0))))
      = ((List.range m.nchan).map (fun i =>
          ((blocks.getD k []).getD i [],
            resetOffsetQ (c.physical_min.getD i 0) (c.physical_max.getD i 0)
              (c.digital_min.getD i 0) (c.digital_max.getD i 0),
            resetScaleQ (c.physical_min.getD i 0) (c.physical_max.getD i 0)
              (c.digital_min.getD i 0) (c.digital_max.getD i 0)))).map
          (fun t => (t.1.length, t.2.2, t.2.1)) := by
    rw [List.map_map]
    apply List.map_congr_left
    intro i hi
    have hmem : blocks.getD k [] ∈ blocks := by
      rw [List.getD_eq_getElem _ _ hk]
      exact List.getElem_mem hk
    have hblk := hvb (blocks.getD k []) hmem
    have hlen := (hblk.2 i (List.mem_range.mp hi)).1
    simp only [Function.comp]
    rw [hlen]
  -- blocksize equals 2 bytes times the total samples per record
  have hsumtrip : (((List.range m.nchan).map (fun i =>
      (c.n_samps.getD i 0,
        resetScaleQ (c.physical_min.getD i 0) (c.physical_max.getD i 0)
          (c.digital_min.getD i 0) (c.digital_max.getD i 0),
        resetOffsetQ (c.physical_min.getD i 0) (c.physical_max.getD i 0)
          (c.digital_min.getD i 0) (c.digital_max.getD i 0)))).map
      (fun t => t.1)).sum = c.n_samps.sum := by
    rw [List.map_map]
    have hcomp : ((fun (t : Nat × ℚ × ℚ) => t.1) ∘ fun i =>
        (c.n_samps.getD i 0,
          resetScaleQ (c.physical_min.getD i 0) (c.physical_max.getD i 0)
            (c.digital_min.getD i 0) (c.digital_max.getD i 0),
          resetOffsetQ (c.physical_min.getD i 0) (c.physical_max.getD i 0)
            (c.digital_min.getD i 0) (c.digital_max.getD i 0)))
        = fun i => c.n_samps.getD i 0 := rfl
    rw [hcomp, ← hns, map_getD_range]
  -- split the file around block k
  have hmem' : ∀ b ∈ blocks, (writeBlockBytes m.nchan c b).length
      = 2 * c.n_samps.sum := by
    intro b hb
    exact writeBlockBytes_length hns (fun i hi => ((hvb b hb).2 i hi).1)
  have hblocks : blocks = blocks.take k
      ++ blocks.getD k [] :: blocks.drop (k + 1) := by
    conv_lhs => rw [← List.take_append_drop k blocks]
    rw [List.drop_eq_getElem_cons hk, List.getD_eq_getElem _ _ hk]
  have hsplit : finalFile m c blocks
      = (encodeMeas m (padtrim (natBytes blocks.length) 8)
          ++ (encodeChan c m.nchan
            ++ ((blocks.take k).map (writeBlockBytes m.nchan c)).flatten))
        ++ encBlock ((List.range m.nchan).map (fun i =>
            ((blocks.getD k []).getD i [],
              resetOffsetQ (c.physical_min.getD i 0) (c.physical_max.getD i 0)
                (c.digital_min.getD i 0) (c.digital_max.getD i 0),
              resetScaleQ (c.physical_min.getD i 0) (c.physical_max.getD i 0)
                (c.digital_min.getD i 0) (c.digital_max.getD i 0))))
        ++ ((blocks.drop (k + 1)).map (writeBlockBytes m.nchan c)).flatten := by
    have hwb : writeBlockBytes m.nchan c (blocks.getD k [])
        = encBlock ((List.range m.nchan).map (fun i =>
            ((blocks.getD k []).getD i [],
              resetOffsetQ (c.physical_min.getD i 0) (c.physical_max.getD i 0)
                (c.digital_min.getD i 0) (c.digital_max.getD i 0),
              resetScaleQ (c.physical_min.getD i 0) (c.physical_max.getD i 0)
                (c.digital_min.getD i 0) (c.digital_max.getD i 0)))) := by
      simp [writeBlockBytes, chanCalib]
    have hdata : (blocks.map (writeBlockBytes m.nchan c)).flatten
        = ((blocks.take k).map (writeBlockBytes m.nchan c)).flatten
          ++ (writeBlockBytes m.nchan c (blocks.getD k [])
            ++ ((blocks.drop (k + 1)).map (writeBlockBytes m.nchan c)).flatten) := by
      conv_lhs => rw [hblocks]
      rw [List.map_append, List.map_cons, List.flatten_append, List.flatten_cons]
    rw [finalFile_layout hvm hvc hvb, hdata, hwb]
    simp [List.append_assoc]
  have hprelen : (encodeMeas m (padtrim (natBytes blocks.length) 8)
      ++ (encodeChan c m.nchan
        ++ ((blocks.take k).map (writeBlockBytes m.nchan c)).flatten)).length
      = 256 + 256 * m.nchan + k * (2 * c.n_samps.sum) := by
    have htk : ∀ b ∈ (blocks.take k).map (writeBlockBytes m.nchan c),
        b.length = 2 * c.n_samps.sum := by
      intro b hb
      simp only [List.mem_map] at hb
      obtain ⟨blk, hblk, rfl⟩ := hb
      exact hmem' blk ((List.take_subset k blocks) hblk)
    rw [List.length_append, List.length_append,
      encodeMeas_length hvm (padtrim_length (natBytes_len_le (by norm_num) hN)),
      encodeChan_length hvc, flatten_length_uniform htk, List.length_map,
      List.length_take, Nat.min_eq_left (le_of_lt hk)]
    ring
  have hpos : 256 + 256 * m.nchan + k * (c.n_samps.sum * 2)
      = (encodeMeas m (padtrim (natBytes blocks.length) 8)
        ++ (encodeChan c m.nchan
          ++ ((blocks.take k).map (writeBlockBytes m.nchan c)).flatten)).length := by
    rw [hprelen]
    ring
  rw [hsumtrip, htrip, hsplit, hpos]
  have happ := readChannels_encBlock
    ((List.range m.nchan).map (fun i =>
      ((blocks.getD k []).getD i [],
        resetOffsetQ (c.physical_min.getD i 0) (c.physical_max.getD i 0)
          (c.digital_min.getD i 0) (c.digital_max.getD i 0),
        resetScaleQ (c.physical_min.getD i 0) (c.physical_max.getD i 0)
          (c.digital_min.getD i 0) (c.digital_max.getD i 0))))
    (encodeMeas m (padtrim (natBytes blocks.length) 8)
      ++ (encodeChan c m.nchan
        ++ ((blocks.take k).map (writeBlockBytes m.nchan c)).flatten))
    (((blocks.drop (k + 1)).map (writeBlockBytes m.nchan c)).flatten)
  rw [happ, List.map_map]
  rfl

/-! ### read_samples / read_signal (lines 583-635)

read_samples(channel, begsample, endsample) computes
begblock = floor(begsample / n_samps[channel]) and likewise endblock, reads
block begblock, appends blocks begblock+1 .. endblock, and slices
data[begsample - begblock*n : endsample - begblock*n + 1].  The model
abstracts the one-channel view of read_block as a function rb from block
index to the samples of that channel (the byte-level behaviour of read_block is
verified separately above). -/

def read_samplesM (rb : Nat → List ℚ) (n begsample endsample : Nat) : List ℚ :=
  let begblock := begsample / n
  let endblock := endsample / n
  let data := ((List.range (endblock + 1 - begblock)).map
    (fun j => rb (begblock + j))).flatten
  (data.drop (begsample - begblock * n)).take
    ((endsample - begblock * n) + 1 - (begsample - begblock * n))

/-- The whole recorded signal of one channel, blocks in order. -/
def fullSignal (rb : Nat → List ℚ) (n_records : Nat) : List ℚ :=
  ((List.range n_records).map rb).flatten

/-- read_signal(chanindx) = read_samples(chanindx, 0, n_samps*n_records - 1). -/
def read_signalM (rb : Nat → List ℚ) (n n_records : Nat) : List ℚ :=
  read_samplesM rb n 0 (n * n_records - 1)

theorem lt_div_succ_mul (a b : Nat) (hb : 0 < b) : a < (a / b + 1) * b := by
  have h1 := Nat.div_add_mod a b
  have h2 := Nat.mod_lt a hb
  have h3 : (a / b + 1) * b = b * (a / b) + b := by ring
  omega

/-- read_samples returns exactly the requested inclusive range of the
channel signal, across block boundaries. -/
theorem read_samplesM_eq_slice (rb : Nat → List ℚ) {n N : Nat} (hn : 0 < n)
    (hrb : ∀ k, k < N → (rb k).length = n) {b e : Nat} (hbe : b ≤ e)
    (he : e < n * N) :
    read_samplesM rb n b e = ((fullSignal rb N).drop b).take (e + 1 - b) := by
  have hBb := Nat.div_mul_le_self b n
  have hBb2 := lt_div_succ_mul b n hn
  have hEe := Nat.div_mul_le_self e n
  have hEe2 := lt_div_succ_mul e n hn
  have hle : b / n ≤ e / n := Nat.div_le_div_right hbe
  have hlt : e / n < N := by
    rw [Nat.div_lt_iff_lt_mul hn, Nat.mul_comm N n]
    exact he
  set L := (List.range N).map rb with hL
  have hLu : ∀ l ∈ L, l.length = n := by
    intro l hl
    rw [hL] at hl
    simp only [List.mem_map, List.mem_range] at hl
    obtain ⟨k, hk, rfl⟩ := hl
    exact hrb k hk
  have hchunks : (List.range (e / n + 1 - b / n)).map (fun j => rb (b / n + j))
      = (L.drop (b / n)).take (e / n + 1 - b / n) := by
    apply List.ext_getElem
    · simp only [List.length_map, List.length_range, List.length_take,
        List.length_drop, hL]
      omega
    · intro j h1 h2
      simp only [List.getElem_map, List.getElem_range, List.getElem_take,
        List.getElem_drop, hL]
  have hdropu : ∀ l ∈ L.drop (b / n), l.length = n :=
    fun l hl => hLu l ((List.drop_subset _ _) hl)
  have hdata : ((List.range (e / n + 1 - b / n)).map
      (fun j => rb (b / n + j))).flatten
      = ((fullSignal rb N).drop (b / n * n)).take ((e / n + 1 - b / n) * n) := by
    rw [hchunks, ← flatten_take_uniform hdropu, ← flatten_drop_uniform hLu]
    rfl
  simp only [read_samplesM]
  rw [hdata, List.drop_take, List.drop_drop, List.take_take]
  have e1 : b / n * n + (b - b / n * n) = b := by omega
  rw [e1]
  congr 1
  have e2 : (e / n + 1 - b / n) * n + b / n * n = (e / n + 1) * n := by
    rw [← Nat.add_mul]
    congr 1
    omega
  omega

theorem fullSignal_length (rb : Nat → List ℚ) {n N : Nat}
    (hrb : ∀ k, k < N → (rb k).length = n) :
    (fullSignal rb N).length = N * n := by
  unfold fullSignal
  rw [@flatten_length_uniform _ _ n (by
    intro l hl
    simp only [List.mem_map, List.mem_range] at hl
    obtain ⟨k, hk, rfl⟩ := hl
    exact hrb k hk)]
  simp

theorem read_samplesM_length (rb : Nat → List ℚ) {n N : Nat} (hn : 0 < n)
    (hrb : ∀ k, k < N → (rb k).length = n) {b e : Nat} (hbe : b ≤ e)
    (he : e < n * N) :
    (read_samplesM rb n b e).length = e + 1 - b := by
  rw [read_samplesM_eq_slice rb hn hrb hbe he, List.length_take,
    List.length_drop, fullSignal_length rb hrb]
  have : n * N = N * n := Nat.mul_comm n N
  omega

/-- read_signal returns the whole channel signal. -/
theorem read_signalM_eq (rb : Nat → List ℚ) {n N : Nat} (hn : 0 < n)
    (hN : 0 < N) (hrb : ∀ k, k < N → (rb k).length = n) :
    read_signalM rb n N = fullSignal rb N := by
  have hpos : 0 < n * N := Nat.mul_pos hn hN
  unfold read_signalM
  rw [read_samplesM_eq_slice rb hn hrb (by omega) (by omega), List.drop_zero]
  have h1 : n * N - 1 + 1 - 0 = n * N := by omega
  rw [h1, List.take_of_length_le]
  rw [fullSignal_length rb hrb, Nat.mul_comm N n]

/-! ### EDFWriter.close resource safety (lines 136-171)

close renames the original file to fname + ".bak", then opens the temp file
for reading (fid1) and the original path for writing (fid2) in nested
with-blocks, streams the patched copy, and only after both with-blocks exit
does os.remove delete the temp file.  A failure in the copy loop
propagates out of the with-blocks (which still close both handles) and
skips the os.remove.  The model makes the failure point explicit: failAt =
some f means the f-th write to the destination raises, failAt = none is
the error-free run. -/

structure CloseState where
  atDest : Option (List Nat)
  atTemp : Option (List Nat)
  fid1_closed : Bool
  fid2_closed : Bool
  raised : Bool
deriving DecidableEq

/-- The successive chunks close writes to the destination handle: the
236-byte prefix, the patched record-count field, the rest of the header,
then one read of blocksize bytes per data block. -/
def closeWrites (orig : List Nat) (n_records dataOffset blocksize : Nat) :
    List (List Nat) :=
  [orig.take 236, padtrim (natBytes n_records) 8,
    (orig.drop 244).take (dataOffset - 236 - 8)]
  ++ (List.range n_records).map (fun k =>
      (orig.drop (dataOffset + k * blocksize)).take blocksize)

/-- State after close under the failure model.  os.rename moves the
original bytes to the temp path before any write; writes before the
failure point land in the destination; the with-blocks close both handles
on every exit path; os.remove runs only when no write raised. -/
def closeRun (orig : List Nat) (n_records dataOffset blocksize : Nat)
    (failAt : Option Nat) : CloseState :=
  let ws := closeWrites orig n_records dataOffset blocksize
  let m := match failAt with
    | none => ws.length
    | some f => min f ws.length
  let raised := match failAt with
    | none => false
    | some f => decide (f < ws.length)
  { atDest := some ((ws.take m).flatten)
    atTemp := if raised then some orig else none
    fid1_closed := true
    fid2_closed := true
    raised := raised }

/-- Consecutive fixed-size reads cover exactly the data region, even when
the file runs short. -/
theorem flatten_window_take (l : List Nat) (N bs : Nat) :
    ((List.range N).map (fun k => (l.drop (k * bs)).take bs)).flatten
      = l.take (N * bs) := by
  induction N with
  | zero => simp
  | succ M ih =>
    rw [List.range_succ, List.map_append, List.flatten_append, ih]
    simp only [List.map_cons, List.map_nil, List.flatten_cons,
      List.flatten_nil, List.append_nil]
    rw [Nat.succ_mul, List.take_add]

/-- The flat content of a completed copy is exactly the closeCopy slice
used by the file-layout model. -/
theorem closeWrites_flatten (orig : List Nat) (n_records dataOffset blocksize : Nat) :
    (closeWrites orig n_records dataOffset blocksize).flatten
      = closeCopy orig n_records dataOffset blocksize := by
  unfold closeWrites closeCopy
  rw [List.flatten_append]
  have hw : ((List.range n_records).map (fun k =>
      ((orig.drop dataOffset).drop (k * blocksize)).take blocksize)).flatten
      = (orig.drop dataOffset).take (n_records * blocksize) :=
    flatten_window_take (orig.drop dataOffset) n_records blocksize
  have hshift : ∀ k : Nat, (orig.drop (dataOffset + k * blocksize))
      = (orig.drop dataOffset).drop (k * blocksize) := by
    intro k
    rw [List.drop_drop]
  simp only [hshift, hw]
  simp [List.append_assoc]

/-! ### Helper facts for the claim-level theorems -/

/-- padtrim always returns exactly the field width, padding or slicing. -/
theorem padtrim_len (buf : List Nat) (num : Nat) : (padtrim buf num).length = num := by
  unfold padtrim
  split
  · simp
    omega
  · simp
    omega

/-- Isolating the 80-byte field that follows an 8-byte field at the start
of a byte stream. -/
theorem drop_take_mid {a b R : List Nat} (ha : a.length = 8) (hb : b.length = 80) :
    ((a ++ (b ++ R)).drop 8).take 80 = b := by
  have h8 : (8 : Nat) = a.length + 0 := by omega
  rw [h8, drop_append_plus, List.drop_zero]
  have h80 : (80 : Nat) = b.length + 0 := by omega
  rw [h80, take_append_plus, List.take_zero, List.append_nil]

/-- Under the valid-header ranges the derived per-channel scale is strictly
positive, so the reset loop leaves it unchanged. -/
theorem chanCalib_pos {c : ChanInfo} {nchan : Nat} (hvc : validChan c nchan)
    {i : Nat} (hi : i < nchan) : 0 < (chanCalib c i).1 := by
  obtain ⟨-, -, -, -, -, -, -, -, -, -, -, -, -, -, -, -, hcal⟩ := hvc
  obtain ⟨hd, hp⟩ := hcal i hi
  have hdq : (0 : ℚ) < ((c.digital_max.getD i 0 : ℚ) - (c.digital_min.getD i 0 : ℚ)) := by
    rw [sub_pos]
    exact_mod_cast hd
  have hpq : (0 : ℚ) < ((c.physical_max.getD i 0 : ℚ) - (c.physical_min.getD i 0 : ℚ)) := by
    rw [sub_pos]
    exact_mod_cast hp
  have hpos : 0 < calibScaleQ (c.physical_min.getD i 0) (c.physical_max.getD i 0)
      (c.digital_min.getD i 0) (c.digital_max.getD i 0) := div_pos hpq hdq
  show 0 < resetScaleQ _ _ _ _
  rw [resetScaleQ, if_neg (by linarith)]
  exact hpos

/-- A token matched by the HP/LP scan is a nonempty word (the regex group
is one or more word characters). -/
theorem matchTokAt_ne_nil {t1 t2 : Nat} {l w r : List Nat}
    (h : matchTokAt t1 t2 l = some (w, r)) : w ≠ [] := by
  intro hw
  subst hw
  match l with
  | [] => simp [matchTokAt] at h
  | [a] => simp [matchTokAt] at h
  | [a, b] => simp [matchTokAt] at h
  | a :: b :: c :: rest =>
    simp only [matchTokAt] at h
    split_ifs at h with h1 h2 h3
    all_goals simp_all

theorem findTokAux_ne_nil (t1 t2 fuel : Nat) (l : List Nat) :
    ∀ w ∈ findTokAux t1 t2 fuel l, w ≠ [] := by
  induction fuel generalizing l with
  | zero => simp [findTokAux]
  | succ f ih =>
    match l with
    | [] => simp [findTokAux]
    | b :: rest =>
      intro w hw
      simp only [findTokAux] at hw
      cases hm : matchTokAt t1 t2 (b :: rest) with
      | none =>
        simp only [hm] at hw
        exact ih rest w hw
      | some p =>
        obtain ⟨w0, r3⟩ := p
        simp only [hm] at hw
        rw [List.mem_cons] at hw
        rcases hw with rfl | hw
        · exact matchTokAt_ne_nil hm
        · exact ih r3 w hw

theorem findTok_ne_nil (t1 t2 : Nat) (l : List Nat) :
    ∀ w ∈ findTok t1 t2 l, w ≠ [] :=
  findTokAux_ne_nil t1 t2 l.length l

theorem tokens_ne_nil (tag : Nat) (pref : List (List Nat)) :
    ∀ w ∈ (pref.dropLast.map (findTok tag 80)).flatten, w ≠ [] := by
  intro w hw
  simp only [List.mem_flatten, List.mem_map] at hw
  obtain ⟨ts, ⟨l, -, rfl⟩, hmem⟩ := hw
  exact findTok_ne_nil tag 80 l w hmem

/-! ### Concrete inputs used by the claim witnesses -/

/-- The two-channel scenario of the round-trip claim: scale 1, offset 0,
four samples per record and channel. -/
def exM1 : MeasInfo :=
  { subject_id := []
    recording_id := []
    subtype := bytesOf "edf"
    day := 1
    month := 1
    year := 0
    hour := 0
    minute := 0
    second := 0
    record_length := 1
    nchan := 2 }

def exC1 : ChanInfo :=
  { ch_names := [[65], [66]]
    transducers := [[], []]
    units := [[], []]
    physical_min := [-32768, -32768]
    physical_max := [32767, 32767]
    digital_min := [-32768, -32768]
    digital_max := [32767, 32767]
    n_samps := [4, 4] }

def exB1 : List (List (List ℚ)) := [[[1, 2, 3, 4], [5, 6, 7, 8]]]

/-! ### The claims -/

/-- C1: a full writer session (write_header, one write_block per record,
close) followed by reopening decodes a header whose fields equal the
originals (data_offset is the derived 256 + 256 * nchan), reports
n_records equal to the number of blocks written, and every re-read block
recovers the per-channel physical samples through the quantization round
trip, whose per-sample error is strictly below one calibration step
(|scale|, not |scale| / 2: the digital value is truncated toward zero,
not rounded to nearest). -/
theorem edf_C1_roundtrip {m : MeasInfo} {c : ChanInfo}
    {blocks : List (List (List ℚ))} (hvm : validMeas m)
    (hvc : validChan c m.nchan) (hvb : validBlocks c m.nchan blocks)
    (hN : blocks.length < 10 ^ 8) :
    decodeHeader (finalFile m c blocks) m.subtype =
      { file_ver := natBytes 0
        subject_id := m.subject_id
        recording_id := m.recording_id
        day := m.day
        month := m.month
        year := m.year
        hour := m.hour
        minute := m.minute
        second := m.second
        data_offset := 256 + 256 * m.nchan
        subtype := m.subtype
        data_size := 2
        n_records := (blocks.length : ℚ)
        record_length := m.record_length
        nchan := m.nchan
        ch_names := c.ch_names
        transducers := c.transducers
        units := c.units
        physical_min := c.physical_min
        physical_max := c.physical_max
        digital_min := c.digital_min
        digital_max := c.digital_max
        highpass := 0
        highpass_warned := false
        lowpass := none
        lowpass_warned := false
        n_samps := c.n_samps
        calib := calibAll (c.physical_min.map (fun v => (v : ℚ)))
          (c.physical_max.map (fun v => (v : ℚ)))
          (c.digital_min.map (fun v => (v : ℚ)))
          (c.digital_max.map (fun v => (v : ℚ))) } ∧
    (∀ k, k < blocks.length →
      readBlockH (finalFile m c blocks)
          (decodeHeader (finalFile m c blocks) m.subtype) k
        = some ((List.range m.nchan).map (fun i =>
            ((blocks.getD k []).getD i []).map (fun x =>
              readPhysical (writeDigital x (chanCalib c i).2 (chanCalib c i).1)
                (chanCalib c i).1 (chanCalib c i).2)))) ∧
    (∀ i, i < m.nchan → 0 < (chanCalib c i).1 ∧
      ∀ blk ∈ blocks, ∀ x ∈ blk.getD i [],
        |readPhysical (writeDigital x (chanCalib c i).2 (chanCalib c i).1)
            (chanCalib c i).1 (chanCalib c i).2 - x| < (chanCalib c i).1) := by
  refine ⟨decode_final hvm hvc hvb hN,
    fun k hk => readBlock_final hvm hvc hvb hN hk, ?_⟩
  intro i hi
  have hpos := chanCalib_pos hvc hi
  refine ⟨hpos, ?_⟩
  intro blk hblk x hx
  have hr := ((hvb blk hblk).2 i hi).2 x hx
  have hb := readPhysical_writeDigital (ne_of_gt hpos) hr.1 hr.2
  rwa [abs_of_pos hpos] at hb

/-- C1 witness: the concrete two-channel scenario; one block of
[[1,2,3,4],[5,6,7,8]] at scale 1, offset 0 reopens with n_records 1 and
read_block 0 returning the samples exactly. -/
theorem edf_C1_witness :
    validMeas exM1 ∧ validChan exC1 exM1.nchan ∧
    validBlocks exC1 exM1.nchan exB1 ∧ exB1.length < 10 ^ 8 ∧
    (decodeHeader (finalFile exM1 exC1 exB1) exM1.subtype).n_records = 1 ∧
    readBlockH (finalFile exM1 exC1 exB1)
        (decodeHeader (finalFile exM1 exC1 exB1) exM1.subtype) 0
      = some [[1, 2, 3, 4], [5, 6, 7, 8]] := by
  have hvm : validMeas exM1 := by
    unfold validMeas validStr
    decide
  have hvc : validChan exC1 exM1.nchan := by
    unfold validChan validStr
    decide
  have hvb : validBlocks exC1 exM1.nchan exB1 := by
    unfold validBlocks
    with_unfolding_all decide
  have hN : exB1.length < 10 ^ 8 := by decide
  have h := edf_C1_roundtrip hvm hvc hvb hN
  refine ⟨hvm, hvc, hvb, hN, ?_, ?_⟩
  · rw [h.1]
    with_unfolding_all decide
  · exact (h.2.1 0 (by decide)).trans (by with_unfolding_all decide)

/-- C1 counterexample to the claimed |scale| / 2 bound: at scale 1 and
offset 0 the sample 19/10 is stored as digital 1 (truncation toward zero)
and reads back as 1, an error of 9/10 > 1/2. -/
theorem edf_C1_counterexample :
    |readPhysical (writeDigital (19 / 10) 0 1) 1 0 - 19 / 10| > 1 / 2 := by
  with_unfolding_all decide

/-- C2: the calibration fallback resets a channel to scale 1, offset 0
exactly when the derived scale compares below zero under float semantics
(finite negative, or -inf from a zero digital range with
physical_max < physical_min); a zero digital range with
physical_max > physical_min yields +inf and a zero range with equal
physical bounds yields nan, and neither is reset; no case raises. -/
theorem edf_C2_calibration_reset (pmin pmax dmin dmax : ℚ) :
    (fltZeroFV (fdivFV (pmax - pmin) (dmax - dmin)) = true →
      calibChannel pmin pmax dmin dmax = (.q 1, .q 0)) ∧
    (dmax = dmin → pmax < pmin →
      calibChannel pmin pmax dmin dmax = (.q 1, .q 0)) ∧
    (dmax = dmin → pmin < pmax →
      (calibChannel pmin pmax dmin dmax).1 = .pinf) ∧
    (dmax = dmin → pmax = pmin →
      (calibChannel pmin pmax dmin dmax).1 = .nan) := by
  refine ⟨?_, ?_, ?_, ?_⟩
  · intro h
    simp only [calibChannel]
    rw [if_pos h]
  · intro hd hp
    have hden : dmax - dmin = 0 := by rw [hd, sub_self]
    have h1 : fdivFV (pmax - pmin) (dmax - dmin) = FV.ninf := by
      rw [fdivFV, if_neg (by simp [hden]), if_neg (by push_neg; linarith),
        if_pos (by linarith)]
    simp [calibChannel, h1, fltZeroFV]
  · intro hd hp
    have hden : dmax - dmin = 0 := by rw [hd, sub_self]
    have h1 : fdivFV (pmax - pmin) (dmax - dmin) = FV.pinf := by
      rw [fdivFV, if_neg (by simp [hden]), if_pos (by linarith)]
    simp [calibChannel, h1, fltZeroFV]
  · intro hd hp
    have hden : dmax - dmin = 0 := by rw [hd, sub_self]
    have hnum : pmax - pmin = 0 := by rw [hp, sub_self]
    have h1 : fdivFV (pmax - pmin) (dmax - dmin) = FV.nan := by
      rw [fdivFV, if_neg (by simp [hden]), if_neg (by simp [hnum]),
        if_neg (by simp [hnum])]
    simp [calibChannel, h1, fltZeroFV]

/-- C2 witness: a channel with physical range 0..1 over the zero digital
range 5..5 keeps the +inf scale float division produces. -/
theorem edf_C2_witness :
    ((5 : ℚ) = 5) ∧ ((0 : ℚ) < 1) ∧ (calibChannel 0 1 5 5).1 = FV.pinf :=
  ⟨rfl, by norm_num, (edf_C2_calibration_reset 0 1 5 5).2.2.1 rfl (by norm_num)⟩

/-- C2 counterexample to the claimed reset on a zero digital range: with
digital_max = digital_min = 5 and physical range 0..1 the channel keeps
scale +inf instead of being reset to scale 1, offset 0. -/
theorem edf_C2_counterexample :
    calibChannel 0 1 5 5 ≠ (FV.q 1, FV.q 0) := by
  with_unfolding_all decide

/-- C3: a stored record count of -1 is recomputed as the float quotient
(file_size - data_offset) / data_size / sum(n_samps) with no floor; the
quotient is exact, so a file holding exactly N full records decodes to
n_records = N, and any other stored count is kept as is. -/
theorem edf_C3_nrecords (fileSize dataOffset dataSize sampsSum : Nat)
    (stored : Int) :
    nRecordsDecode (-1) fileSize dataOffset dataSize sampsSum
      = ((fileSize : ℚ) - (dataOffset : ℚ)) / (dataSize : ℚ) / (sampsSum : ℚ) ∧
    (∀ N : Nat, 0 < dataSize → 0 < sampsSum →
      fileSize = dataOffset + N * (dataSize * sampsSum) →
      nRecordsDecode (-1) fileSize dataOffset dataSize sampsSum = (N : ℚ)) ∧
    (stored ≠ -1 →
      nRecordsDecode stored fileSize dataOffset dataSize sampsSum
        = (stored : ℚ)) := by
  refine ⟨by rw [nRecordsDecode, if_pos rfl], ?_, ?_⟩
  · intro N hds hss hfs
    rw [nRecordsDecode, if_pos rfl, hfs]
    have hds0 : (dataSize : ℚ) ≠ 0 := by positivity
    have hss0 : (sampsSum : ℚ) ≠ 0 := by positivity
    push_cast
    field_simp
  · intro h
    rw [nRecordsDecode, if_neg h]

/-- C3 witness: data_offset 768, data_size 2, 16 samples per record and a
file of 1088 bytes give exactly 10 records. -/
theorem edf_C3_witness :
    (0 < 2) ∧ (0 < 16) ∧ (1088 = 768 + 10 * (2 * 16)) ∧
    nRecordsDecode (-1) 1088 768 2 16 = ((10 : Nat) : ℚ) :=
  ⟨by decide, by decide, by decide,
    (edf_C3_nrecords 1088 768 2 16 0).2.1 10 (by decide) (by decide) (by decide)⟩

/-- C3 counterexample to the claimed floor: a file holding ten and a half
records decodes to the non-integer 21/2, not to 10. -/
theorem edf_C3_counterexample :
    nRecordsDecode (-1) 1104 768 2 16 = 21 / 2 ∧
    ((21 : ℚ) / 2) ≠ ((10 : Nat) : ℚ) := by
  constructor
  · rw [nRecordsDecode, if_pos rfl]
    norm_num
  · norm_num

/-- C4: the sample codec never honours the 3-byte width.  write_block
emits two bytes per sample for every subtype (the pack format is the
hard-coded 2-byte "h"), and read_block, after reading the declared
n * data_size = n * 3 bytes of a BDF channel, hands them to the 2-byte
unpack format, which demands exactly 2 * n bytes and raises struct.error
(modelled as none) on every nonempty channel. -/
theorem edf_C4_bdf_width (xs : List ℚ) (o s cal off : ℚ) (n pos : Nat)
    (file : List Nat) (rest : List (Nat × ℚ × ℚ)) (hn : 0 < n)
    (hfl : n * 3 ≤ (file.drop pos).length) :
    (encChannel xs o s).length = 2 * xs.length ∧
    readChannels file 3 pos ((n, cal, off) :: rest) = none := by
  refine ⟨encChannel_length xs o s, ?_⟩
  simp only [readChannels]
  rw [if_neg (by rw [List.length_take]; omega)]

/-- C4 witness: a one-sample BDF channel whose 3 declared bytes are
present still fails to unpack, while the writer emitted 2 bytes. -/
theorem edf_C4_witness :
    (0 < 1) ∧ (1 * 3 ≤ (([0, 0, 0] : List Nat).drop 0).length) ∧
    (encChannel [1] 0 1).length = 2 * ([1] : List ℚ).length ∧
    readChannels [0, 0, 0] 3 0 [(1, 0, 0)] = none :=
  ⟨by decide, by decide,
    (edf_C4_bdf_width [1] 0 1 0 0 1 0 [0, 0, 0] [] (by decide) (by decide)).1,
    (edf_C4_bdf_width [1] 0 1 0 0 1 0 [0, 0, 0] [] (by decide) (by decide)).2⟩

/-- C5: the prefiltering analysis never compares the per-channel values.
Every token the HP/LP scan yields is a nonempty word, so the numpy
truthiness test all(highpass) always passes, the warning branch is dead
(the warned flag is always false) and the decoded highpass and lowpass
are always the value of the first token; moreover the [:-1] slice drops
the prefiltering field of the last channel entirely. -/
theorem edf_C5_prefilter_first (pref : List (List Nat)) :
    (highpassCalc pref).2 = false ∧
    (lowpassCalc pref).2 = false ∧
    (hpTokens pref ≠ [] →
      (hpTokens pref).headD [] ≠ bytesOf "NaN" →
      (hpTokens pref).headD [] ≠ bytesOf "DC" →
      (highpassCalc pref).1 = tokVal ((hpTokens pref).headD [])) ∧
    (lpTokens pref ≠ [] →
      (lpTokens pref).headD [] ≠ bytesOf "NaN" →
      (lowpassCalc pref).1 = some (tokVal ((lpTokens pref).headD []))) ∧
    (∀ l0, hpTokens (pref ++ [l0]) = (pref.map (findTok 72 80)).flatten) := by
  have hallhp : (hpTokens pref).all (fun s => !s.isEmpty) = true := by
    rw [List.all_eq_true]
    intro s hs
    have hne := tokens_ne_nil 72 pref s hs
    simp [List.isEmpty_iff, hne]
  have halllp : (lpTokens pref).all (fun s => !s.isEmpty) = true := by
    rw [List.all_eq_true]
    intro s hs
    have hne := tokens_ne_nil 76 pref s hs
    simp [List.isEmpty_iff, hne]
  refine ⟨?_, ?_, ?_, ?_, ?_⟩
  · simp only [highpassCalc]
    by_cases h0 : (hpTokens pref).length = 0
    · rw [if_pos h0]
    · rw [if_neg h0, if_pos hallhp]
      split_ifs <;> rfl
  · simp only [lowpassCalc]
    by_cases h0 : (lpTokens pref).length = 0
    · rw [if_pos h0]
    · rw [if_neg h0, if_pos halllp]
      split_ifs <;> rfl
  · intro hne hNaN hDC
    simp only [highpassCalc]
    rw [if_neg (fun h => hne (List.length_eq_zero.mp h)), if_pos hallhp,
      if_neg hNaN, if_neg hDC]
  · intro hne hNaN
    simp only [lowpassCalc]
    rw [if_neg (fun h => hne (List.length_eq_zero.mp h)), if_pos halllp,
      if_neg hNaN]
  · intro l0
    simp only [hpTokens]
    rw [List.dropLast_concat]

/-- C5 example: two channels declaring HP: 1 and HP: 5 plus a trailing
channel; the tokens disagree. -/
def exPref : List (List Nat) := [bytesOf "HP: 1", bytesOf "HP: 5", []]

/-- C5 witness: with disagreeing HP tokens 1 and 5, the decoder keeps the
first value 1 and fires no warning. -/
theorem edf_C5_witness :
    hpTokens exPref ≠ [] ∧ (hpTokens exPref).headD [] = [49] ∧
    (highpassCalc exPref).1 = tokVal ((hpTokens exPref).headD []) ∧
    (highpassCalc exPref).2 = false :=
  ⟨by decide, by decide,
    (edf_C5_prefilter_first exPref).2.2.1 (by decide) (by decide) (by decide),
    (edf_C5_prefilter_first exPref).1⟩

/-- C5 counterexample to the claimed maximum with warning: disagreeing
HP tokens 1 and 5 decode to (1, no warning), while the claimed behaviour
is the maximum 5 with a warning. -/
theorem edf_C5_counterexample :
    highpassCalc exPref = (1, false) ∧
    tokVal (maxLex (hpTokens exPref)) = 5 := by
  constructor
  · with_unfolding_all decide
  · with_unfolding_all decide

/-- C6: close is failure-safe.  The original bytes are moved to the
temporary path before any write; if any write to the destination raises,
the exception propagates, both handles are still closed, and the
temporary file still holds the original bytes; the temporary file is
removed only on the error-free run, in which the destination holds the
complete patched copy.  In particular the destination is never the only
copy while it is incomplete. -/
theorem edf_C6_close_safe (orig : List Nat)
    (n_records dataOffset blocksize : Nat) (failAt : Option Nat) :
    (closeRun orig n_records dataOffset blocksize failAt).fid1_closed = true ∧
    (closeRun orig n_records dataOffset blocksize failAt).fid2_closed = true ∧
    ((closeRun orig n_records dataOffset blocksize failAt).raised = true →
      (closeRun orig n_records dataOffset blocksize failAt).atTemp = some orig) ∧
    ((closeRun orig n_records dataOffset blocksize failAt).atTemp = none →
      (closeRun orig n_records dataOffset blocksize failAt).raised = false) ∧
    ((closeRun orig n_records dataOffset blocksize failAt).raised = false →
      (closeRun orig n_records dataOffset blocksize failAt).atDest
          = some (closeCopy orig n_records dataOffset blocksize) ∧
        (closeRun orig n_records dataOffset blocksize failAt).atTemp = none) := by
  cases failAt with
  | none =>
    simp [closeRun, List.take_length, closeWrites_flatten]
  | some f =>
    by_cases hf : f < (closeWrites orig n_records dataOffset blocksize).length
    · simp [closeRun, hf]
    · simp [closeRun, hf, Nat.min_eq_right (le_of_not_lt hf),
        List.take_length, closeWrites_flatten]

/-- C6 witness: the error-free run of close on a one-byte file leaves the
destination holding the patched copy, the temporary file removed and both
handles closed. -/
theorem edf_C6_witness :
    (closeRun [7] 0 244 2 none).fid1_closed = true ∧
    (closeRun [7] 0 244 2 none).fid2_closed = true ∧
    (closeRun [7] 0 244 2 none).raised = false ∧
    (closeRun [7] 0 244 2 none).atDest = some (closeCopy [7] 0 244 2) ∧
    (closeRun [7] 0 244 2 none).atTemp = none := by
  have h := edf_C6_close_safe [7] 0 244 2 none
  exact ⟨h.1, h.2.1, rfl, (h.2.2.2.2 rfl).1, (h.2.2.2.2 rfl).2⟩

/-- The digital value the spec sentence describes: round to nearest. -/
def specRoundDigital (x offset scale : ℚ) : Int := round ((x - offset) / scale)

/-- C7: write_block stores the truncation toward zero of
(physical - offset) / scale (floor for nonnegative quotients, ceiling for
negative ones, from the numpy int16 cast), then narrowed to the signed
16-bit range; it does not round to nearest. -/
theorem edf_C7_truncation (x offset scale : ℚ) :
    writeDigital x offset scale = wrap16 (truncQ ((x - offset) / scale)) ∧
    (0 ≤ (x - offset) / scale →
      truncQ ((x - offset) / scale) = ⌊(x - offset) / scale⌋) ∧
    ((x - offset) / scale < 0 →
      truncQ ((x - offset) / scale) = ⌈(x - offset) / scale⌉) ∧
    -32768 ≤ writeDigital x offset scale ∧
    writeDigital x offset scale ≤ 32767 := by
  refine ⟨rfl, ?_, ?_, ?_, ?_⟩
  · intro h
    rw [truncQ_eq, if_pos h]
  · intro h
    rw [truncQ_eq, if_neg (not_le.mpr h)]
  · exact (wrap16_mem_range _).1
  · exact (wrap16_mem_range _).2

/-- C7 witness: at scale 1 and offset 0 the digital value of 19/10 is the
wrapped truncation, here the floor of the nonnegative quotient. -/
theorem edf_C7_witness :
    ((0 : ℚ) ≤ (19 / 10 - 0) / 1) ∧
    truncQ ((19 / 10 - 0) / 1) = ⌊((19 : ℚ) / 10 - 0) / 1⌋ ∧
    writeDigital (19 / 10) 0 1 = wrap16 (truncQ ((19 / 10 - 0) / 1)) :=
  ⟨by norm_num, (edf_C7_truncation (19 / 10) 0 1).2.1 (by norm_num),
    (edf_C7_truncation (19 / 10) 0 1).1⟩

/-- C7 counterexample to round-to-nearest: 19/10 is stored as digital 1,
while rounding would store 2. -/
theorem edf_C7_counterexample :
    writeDigital (19 / 10) 0 1 = 1 ∧ specRoundDigital (19 / 10) 0 1 = 2 := by
  constructor
  · with_unfolding_all decide
  · rw [specRoundDigital, round_eq]
    have h : ((19 : ℚ) / 10 - 0) / 1 + 1 / 2 = 12 / 5 := by norm_num
    rw [h, Int.floor_eq_iff]
    constructor <;> norm_num

/-- A trivial measurement header used to instantiate the C8 witness. -/
def exM8 : MeasInfo :=
  { subject_id := []
    recording_id := []
    subtype := []
    day := 1
    month := 1
    year := 0
    hour := 0
    minute := 0
    second := 0
    record_length := 1
    nchan := 1 }

/-- C8: padtrim silently slices an over-width value to the field width
instead of rejecting it; values that fit are right-padded with spaces.
Every field write_header emits goes through padtrim, here witnessed by the
80-byte subject_id field of the encoded header. -/
theorem edf_C8_silent_truncation (buf : List Nat) (num : Nat)
    (m : MeasInfo) (nf : List Nat) :
    (padtrim buf num).length = num ∧
    (buf.length ≤ num →
      padtrim buf num = buf ++ List.replicate (num - buf.length) 32) ∧
    (num < buf.length → padtrim buf num = buf.take num) ∧
    ((encodeMeas m nf).drop 8).take 80 = padtrim m.subject_id 80 := by
  refine ⟨padtrim_len buf num, ?_, ?_, ?_⟩
  · intro h
    rw [padtrim, if_pos h]
  · intro h
    rw [padtrim, if_neg (by omega)]
  · rw [encodeMeas]
    simp only [List.append_assoc]
    exact drop_take_mid (padtrim_len (natBytes 0) 8) (padtrim_len m.subject_id 80)

/-- C8 witness: the five digit bytes of 12345 are silently sliced to four
in a 4-byte field, and the subject_id field of an encoded header is its
padtrim image. -/
theorem edf_C8_witness :
    (4 < ([49, 50, 51, 52, 53] : List Nat).length) ∧
    padtrim [49, 50, 51, 52, 53] 4 = ([49, 50, 51, 52, 53] : List Nat).take 4 ∧
    ((encodeMeas exM8 (padtrim (intBytes (-1)) 8)).drop 8).take 80
      = padtrim exM8.subject_id 80 :=
  ⟨by decide,
    (edf_C8_silent_truncation [49, 50, 51, 52, 53] 4 exM8
      (padtrim (intBytes (-1)) 8)).2.2.1 (by decide),
    (edf_C8_silent_truncation [49, 50, 51, 52, 53] 4 exM8
      (padtrim (intBytes (-1)) 8)).2.2.2⟩

/-- C8 counterexample to rejection of over-width values: the nine digits
of 123456789 are silently truncated to the eight digits of 12345678 in an
8-byte field, and a reader parses the truncated value back. -/
theorem edf_C8_counterexample :
    padtrim (natBytes 123456789) 8 = natBytes 12345678 ∧
    parseNatB (stripB (padtrim (natBytes 123456789) 8)) = 12345678 := by
  constructor
  · decide
  · decide

/-- C9: read_samples returns exactly the inclusive global sample range
begsample..endsample of one channel, spanning block boundaries, with
endsample - begsample + 1 values; read_samples of 0..0 returns one value
and the full range equals read_signal, which is the whole signal. -/
theorem edf_C9_read_samples (rb : Nat → List ℚ) (n N : Nat) (hn : 0 < n)
    (hN : 0 < N) (hrb : ∀ k, k < N → (rb k).length = n) :
    (∀ b e, b ≤ e → e < n * N →
      read_samplesM rb n b e = ((fullSignal rb N).drop b).take (e + 1 - b) ∧
      (read_samplesM rb n b e).length = e + 1 - b) ∧
    (read_samplesM rb n 0 0).length = 1 ∧
    read_samplesM rb n 0 (n * N - 1) = read_signalM rb n N ∧
    read_signalM rb n N = fullSignal rb N := by
  refine ⟨?_, ?_, rfl, read_signalM_eq rb hn hN hrb⟩
  · intro b e hbe he
    exact ⟨read_samplesM_eq_slice rb hn hrb hbe he,
      read_samplesM_length rb hn hrb hbe he⟩
  · have h := read_samplesM_length rb hn hrb (le_refl 0) (Nat.mul_pos hn hN)
    omega

/-- A concrete two-samples-per-block channel view for the C9 witness. -/
def exRb : Nat → List ℚ := fun k => [(k : ℚ), (k : ℚ) + 1]

/-- C9 witness: three blocks of two samples; read_samples 0 0 has one
value and read_signal is the whole signal. -/
theorem edf_C9_witness :
    (0 < 2) ∧ (∀ k, k < 3 → (exRb k).length = 2) ∧
    (read_samplesM exRb 2 0 0).length = 1 ∧
    read_signalM exRb 2 3 = fullSignal exRb 3 :=
  ⟨by decide, by decide,
    (edf_C9_read_samples exRb 2 3 (by decide) (by decide) (by decide)).2.1,
    (edf_C9_read_samples exRb 2 3 (by decide) (by decide) (by decide)).2.2.2⟩

/-- C10: write_header mutates the header passed by the caller: it inserts
defaults for the missing subject_id, recording_id and subtype keys,
derives and stores data_size and data_offset in meas_info, and replaces
missing or short ch_names, transducers and units in chan_info, so the
dictionaries differ from what was passed whenever a key was absent. -/
theorem edf_C10_write_header_mutates (m : MeasInfoIn) (c : ChanInfoIn) :
    (fillMeas m).subject_id = some (m.subject_id.getD []) ∧
    (fillMeas m).recording_id = some (m.recording_id.getD []) ∧
    (fillMeas m).subtype = some (m.subtype.getD (bytesOf "edf")) ∧
    (fillMeas m).data_size = some (dataSizeOf (m.subtype.getD (bytesOf "edf"))) ∧
    (fillMeas m).data_offset = some (256 + 256 * m.nchan) ∧
    (fillChan c m.nchan).ch_names
      = some (fillList c.ch_names m.nchan ((List.range m.nchan).map natBytes)) ∧
    (fillChan c m.nchan).transducers
      = some (fillList c.transducers m.nchan (List.replicate m.nchan [])) ∧
    (fillChan c m.nchan).units
      = some (fillList c.units m.nchan (List.replicate m.nchan [])) ∧
    (m.data_offset = none → fillMeas m ≠ m) ∧
    (c.ch_names = none → fillChan c m.nchan ≠ c) := by
  refine ⟨rfl, rfl, rfl, rfl, rfl, rfl, rfl, rfl, ?_, ?_⟩
  · intro h heq
    have h2 : (fillMeas m).data_offset = none := by rw [heq, h]
    exact absurd h2 (by simp [fillMeas])
  · intro h heq
    have h2 : (fillChan c m.nchan).ch_names = none := by rw [heq, h]
    exact absurd h2 (by simp [fillChan])

/-- A header with every defaultable key absent, for the C10 witness. -/
def exMIn : MeasInfoIn :=
  { subject_id := none
    recording_id := none
    subtype := none
    data_size := none
    data_offset := none
    day := 1
    month := 1
    year := 0
    hour := 0
    minute := 0
    second := 0
    record_length := 1
    nchan := 2 }

def exCIn : ChanInfoIn :=
  { ch_names := none
    transducers := none
    units := none
    physical_min := []
    physical_max := []
    digital_min := []
    digital_max := []
    n_samps := [] }

/-- C10 witness: a header with no data_offset and no ch_names comes back
changed from write_header. -/
theorem edf_C10_witness :
    exMIn.data_offset = none ∧ exCIn.ch_names = none ∧
    fillMeas exMIn ≠ exMIn ∧ fillChan exCIn exMIn.nchan ≠ exCIn :=
  ⟨rfl, rfl,
    (edf_C10_write_header_mutates exMIn exCIn).2.2.2.2.2.2.2.2.1 rfl,
    (edf_C10_write_header_mutates exMIn exCIn).2.2.2.2.2.2.2.2.2 rfl⟩

end EDF
